import Mathlib

set_option maxHeartbeats 1000000

/-!
Shallow embedding of the sticky-session store of `src/src/stick_table.c`
(stick tables: dual-indexed session entries, capacity-bounded allocation with
oldest-first eviction, and the wraparound-safe expiration sweep).

The file models the C source directly.  The parts of the repository that the
source includes but that are not under `src/` (the tick arithmetic of
`common/ticks.h`, the `eb32`/`ebmb` ordered-tree primitives, the pool
allocator and the task scheduler) are modelled from the spec, as marked on
each definition.
-/

/-- Modelled from the spec: the tick clock is a wrapping 32-bit counter, so
all tick arithmetic is performed modulo `W = 2^32`. -/
def W : Nat := 4294967296

/-- Modelled from the spec: the "never" sentinel for ticks (`eternity`),
which the tick helpers treat as "not set". -/
def TICK_ETERNITY : Nat := 0

/-- Modelled from the spec: the fixed lookback safety margin used to anchor
the wraparound-safe scans, half of the 32-bit tick range. -/
def TIMER_LOOK_BACK : Nat := 2147483648

/-- 32-bit wrapping subtraction `a - b` (unsigned machine subtraction). -/
def sub32 (a b : Nat) : Nat := (a % W + (W - b % W)) % W

/-- Modelled from the spec: a tick is "set" (finite) iff it is not the
never sentinel. -/
def tick_isset (t : Nat) : Bool := t != 0

/-- Modelled from the spec: signed wrapping comparison `t1 < t2`, true iff
the 32-bit difference `t1 - t2` has its sign bit set. -/
def tick_is_lt (t1 t2 : Nat) : Bool := decide (2147483648 ≤ sub32 t1 t2)

/-- Modelled from the spec: signed wrapping comparison `t1 ≤ t2`. -/
def tick_is_le (t1 t2 : Nat) : Bool :=
  sub32 t1 t2 == 0 || decide (2147483648 ≤ sub32 t1 t2)

/-- Modelled from the spec: a finite timer has expired iff it is at or
before `now` in the wrapping order; the never sentinel never expires. -/
def tick_is_expired (timer now : Nat) : Bool :=
  tick_isset timer && tick_is_le timer now

/-- Modelled from the spec: adding a duration to a tick, wrapping at 2^32. -/
def tick_add (now timeout : Nat) : Nat := (now + timeout) % W

/-- Modelled from the spec: the earlier of two ticks, where the never
sentinel loses to any finite tick. -/
def tick_first (t1 t2 : Nat) : Nat :=
  if tick_isset t1 = false then t2
  else if tick_isset t2 = false then t1
  else if tick_is_lt t1 t2 then t1 else t2

/-- Modelled from the spec: milliseconds and ticks coincide. -/
def MS_TO_TICKS (ms : Nat) : Nat := ms

/-- The three configured table key kinds (`stktable_types`). -/
inductive StkTType where
  | ip
  | integer
  | string
deriving DecidableEq

/-- A sticky session (`struct stksess`): its normalized key bytes, server
id, live expiration tick, and the tick currently stamped on its expiration
index node (`exps.key`).  `eid` models the node identity (the address of the
session), which is what tree deletion acts on. -/
structure StkSess where
  eid : Nat
  skey : List Nat
  sid : Int
  expire : Nat
  ekey : Nat
deriving DecidableEq

/-- A stick table (`struct stktable`).  The two indexes are modelled as
lists of the attached sessions: `exps` is kept in ascending `ekey` order
(the in-order traversal of the eb32 tree, duplicates in insertion order);
the traversal order of `keys` is never observed by this code, so `keys` is
kept in insertion order. -/
structure Table where
  ttype : StkTType
  key_size : Nat
  size : Nat
  current : Nat
  nopurge : Bool
  expire : Nat
  keys : List StkSess
  exps : List StkSess
  exp_next : Nat
deriving DecidableEq

/-- Modelled from the spec: "first node" of the expiration index. -/
def eb32_first (exps : List StkSess) : Option StkSess := exps.head?

/-- Modelled from the spec: "first node with key ≥ X" (unsigned key order)
on the expiration index. -/
def eb32_lookup_ge (exps : List StkSess) (k : Nat) : Option StkSess :=
  exps.find? (fun s => decide (k ≤ s.ekey))

/-- Modelled from the spec: insertion into the expiration index; a
duplicate key is placed after the existing equal keys. -/
def eb32_insert (exps : List StkSess) (s : StkSess) : List StkSess :=
  match exps with
  | [] => [s]
  | x :: xs => if s.ekey < x.ekey then s :: x :: xs else x :: eb32_insert xs s

/-- Modelled from the spec: "next node in key order" after the node with
identity `i`. -/
def ebNext (exps : List StkSess) (i : Nat) : Option StkSess :=
  match exps with
  | [] => none
  | x :: xs => if x.eid == i then xs.head? else ebNext xs i

/-- The identities of the sessions of a list. -/
def eids (l : List StkSess) : List Nat := l.map (fun e => e.eid)

/-- `stksess_free`: release a session's slot and decrease the table's
session counter (`t->current--`). -/
def stksess_free (t : Table) : Table := { t with current := t.current - 1 }

/-- The C-string contents of a key buffer: the bytes up to the first zero,
which is what `ebst` comparisons observe. -/
def cstr (l : List Nat) : List Nat := l.takeWhile (fun b => b != 0)

/-- `stksess_key`: normalize a raw key into a session's key buffer.  For a
non-string kind, `key_size` bytes are copied verbatim; for the string kind,
`min(key_size - 1, key_len)` bytes are copied and a zero terminator is
written at that offset. -/
def stksess_key (t : Table) (key : List Nat) (key_len : Nat) : List Nat :=
  if t.ttype != StkTType.string then key.take t.key_size
  else key.take (min (t.key_size - 1) key_len) ++ [0]

/-- `stksess_init`: initialise a session: detached from both indexes
(modelled by its absence from the table's lists), server id 0, normalized
key.  `expire` and `ekey` are not written by the source before `store`;
the model zeroes them and no operation reads them before `store` sets them. -/
def stksess_init (t : Table) (eid : Nat) (key : List Nat) (key_len : Nat) : StkSess :=
  { eid := eid, skey := stksess_key t key key_len, sid := 0, expire := 0, ekey := 0 }

/-- Key-index lookup equality: C-string comparison for the string kind
(`ebst_lookup`), whole-buffer comparison over `key_size` bytes otherwise
(`ebmb_lookup`). -/
def key_match (t : Table) (a b : List Nat) : Bool :=
  if t.ttype = StkTType.string then cstr a == cstr b else a == b

/-- The loop of `stktable_trash_oldest`, one fuel unit per iteration of the
C `while (batched < to_batch)` loop.  The cursor `ebc` is the C variable
`eb`; `none` triggers the wrap to the first node.  Each visited node is
detached from the expiration index first; a node whose stamped key differs
from its live `expire` is dropped (never sentinel) or re-stamped at
`expire`, with the cursor moved to the smaller of the natural successor and
the re-inserted node; otherwise the session is evicted from both indexes
and freed.  The fuel given by the wrapper strictly dominates the number of
iterations the C loop can make. -/
def told_loop : Nat → Table → Option StkSess → Nat → Nat → Nat → Table × Nat
  | 0, t, _, batched, _, _ => (t, batched)
  | fuel+1, t, ebc, batched, to_batch, now =>
    if batched < to_batch then
      match (match ebc with | some e => some e | none => eb32_first t.exps) with
      | none => (t, batched)
      | some ts =>
        let nxt := ebNext t.exps ts.eid
        let exps1 := t.exps.filter (fun x => x.eid != ts.eid)
        if ts.expire != ts.ekey then
          if tick_isset ts.expire = false then
            told_loop fuel { t with exps := exps1 } nxt batched to_batch now
          else
            let ts2 := { ts with ekey := ts.expire }
            let exps2 := eb32_insert exps1 ts2
            let nxt2 := match nxt with
              | none => some ts2
              | some n => if n.ekey > ts2.ekey then some ts2 else some n
            told_loop fuel { t with exps := exps2 } nxt2 batched to_batch now
        else
          told_loop fuel
            { (stksess_free t) with
              exps := exps1,
              keys := t.keys.filter (fun x => x.eid != ts.eid) }
            nxt (batched + 1) to_batch now
    else (t, batched)

/-- `stktable_trash_oldest`: evict up to `to_batch` oldest sessions,
scanning the expiration index from the first node at or after
`now - TIMER_LOOK_BACK` and wrapping to the first node when running off the
end.  Returns the updated table and the number of sessions trashed. -/
def stktable_trash_oldest (t : Table) (to_batch : Nat) (now : Nat) : Table × Nat :=
  told_loop (2 * t.exps.length + 2) t
    (eb32_lookup_ge t.exps (sub32 now TIMER_LOOK_BACK)) 0 to_batch now

/-- `stksess_new`: allocate and initialise a new session.  At capacity, it
fails if `nopurge` is set, otherwise it evicts a batch of `size >> 8`
oldest sessions and fails if nothing was trashed.  `alloc_ok` models the
pool allocator's success.  On success the counter is increased and the
fresh, unattached session is returned. -/
def stksess_new (t : Table) (key : List Nat) (key_len : Nat) (eid : Nat)
    (alloc_ok : Bool) (now : Nat) : Table × Option StkSess :=
  if t.current = t.size then
    if t.nopurge then (t, none)
    else
      let r := stktable_trash_oldest t (t.size >>> 8) now
      if r.2 = 0 then (r.1, none)
      else if alloc_ok then
        ({ r.1 with current := r.1.current + 1 }, some (stksess_init r.1 eid key key_len))
      else (r.1, none)
  else if alloc_ok then
    ({ t with current := t.current + 1 }, some (stksess_init t eid key key_len))
  else (t, none)

/-- `stktable_store`: insert-or-update.  If a session with the same key is
already attached, its server id is updated (written only when it differs)
and 1 is returned, leaving the caller's session unconsumed; otherwise the
caller's session is assigned `sid`, stamped with
`expire = exps.key = tick_add now (MS_TO_TICKS t.expire)`, inserted into
both indexes, and — only when the table's expiration is configured — the
table's next sweep deadline is lowered to `tick_first`; 0 is returned. -/
def stktable_store (t : Table) (ts : StkSess) (sid : Int) (now : Nat) : Table × Nat :=
  match t.keys.find? (fun e => key_match t e.skey ts.skey) with
  | none =>
    let e2 := tick_add now (MS_TO_TICKS t.expire)
    let ts2 := { ts with sid := sid, expire := e2, ekey := e2 }
    let t1 := { t with keys := t.keys ++ [ts2], exps := eb32_insert t.exps ts2 }
    if t.expire ≠ 0 then ({ t1 with exp_next := tick_first ts2.expire t1.exp_next }, 0)
    else (t1, 0)
  | some e =>
    ({ t with keys := t.keys.map (fun x =>
        if x.eid == e.eid then (if x.sid != sid then { x with sid := sid } else x) else x) },
     1)

/-- The loop of `stktable_trash_expired`, one fuel unit per iteration of
the C `while (1)` loop.  The scan stops at the first visited node whose
key is still in the future, recording and returning it as the next sweep
deadline; a visited node is detached, then re-stamped or dropped when its
live `expire` has not expired, and otherwise evicted from both indexes and
freed.  Exhausting the index yields the never sentinel. -/
def texp_loop : Nat → Table → Option StkSess → Nat → Table × Nat
  | 0, t, _, _ => ({ t with exp_next := TICK_ETERNITY }, TICK_ETERNITY)
  | fuel+1, t, ebc, now =>
    match (match ebc with | some e => some e | none => eb32_first t.exps) with
    | none => ({ t with exp_next := TICK_ETERNITY }, TICK_ETERNITY)
    | some ts =>
      if tick_is_lt now ts.ekey then ({ t with exp_next := ts.ekey }, ts.ekey)
      else
        let nxt := ebNext t.exps ts.eid
        let exps1 := t.exps.filter (fun x => x.eid != ts.eid)
        if tick_is_expired ts.expire now = false then
          if tick_isset ts.expire = false then
            texp_loop fuel { t with exps := exps1 } nxt now
          else
            let ts2 := { ts with ekey := ts.expire }
            let exps2 := eb32_insert exps1 ts2
            let nxt2 := match nxt with
              | none => some ts2
              | some n => if n.ekey > ts2.ekey then some ts2 else some n
            texp_loop fuel { t with exps := exps2 } nxt2 now
        else
          texp_loop fuel
            { (stksess_free t) with
              exps := exps1,
              keys := t.keys.filter (fun x => x.eid != ts.eid) }
            nxt now

/-- `stktable_trash_expired`: the expiration sweep, scanning from the
first node at or after `now - TIMER_LOOK_BACK`, wrapping once off the end,
with no batch limit.  Returns the updated table (with `exp_next` recorded)
and the next expiration date. -/
def stktable_trash_expired (t : Table) (now : Nat) : Table × Nat :=
  texp_loop (2 * t.exps.length + 2) t
    (eb32_lookup_ge t.exps (sub32 now TIMER_LOOK_BACK)) now

/-- `stktable_init`: minimal table bootstrap.  With a nonzero size the two
indexes are reset empty and the next sweep deadline is set to the never
sentinel, and the result reports the pool creation outcome (`pool_ok`);
with size 0 the table is left inert and the call reports success. -/
def stktable_init (t : Table) (pool_ok : Bool) : Table × Bool :=
  if t.size ≠ 0 then
    ({ t with keys := [], exps := [], exp_next := TICK_ETERNITY }, pool_ok)
  else (t, true)

/-- The reachable table states of the closed system: a freshly bootstrapped
table followed by any sequence of allocations, stores, sweeps and caller
releases of unconsumed sessions.  A stored session's identity is fresh
(distinct addresses of live sessions), which the `store` step records. -/
inductive Reach : Table → Prop where
  | boot : ∀ tt ks sz np ex, Reach
      { ttype := tt, key_size := ks, size := sz, current := 0, nopurge := np,
        expire := ex, keys := [], exps := [], exp_next := TICK_ETERNITY }
  | new : ∀ t key key_len eid alloc_ok now, Reach t →
      Reach (stksess_new t key key_len eid alloc_ok now).1
  | store : ∀ t ts sid now, Reach t → ts.eid ∉ eids t.exps →
      Reach (stktable_store t ts sid now).1
  | sweep : ∀ t now, Reach t → Reach (stktable_trash_expired t now).1
  | release : ∀ t, Reach t → Reach (stksess_free t)

/-- Sequential removal, by identity, of the sessions of `R` from a key
index, in eviction order (mirrors the successive `ebmb_delete` calls of a
sweep that trashes the sessions of `R`). -/
def rmEids (R keys : List StkSess) : List StkSess :=
  match R with
  | [] => keys
  | r :: rs => rmEids rs (keys.filter (fun x => x.eid != r.eid))

/-- The node order in which a wraparound-anchored scan walks the
expiration index: first the nodes at or after `now - TIMER_LOOK_BACK` in
key order, then — after the wrap to the first node — the nodes before the
anchor. -/
def scan_rot (t : Table) (now : Nat) : List StkSess :=
  t.exps.dropWhile (fun e => !(decide (sub32 now TIMER_LOOK_BACK ≤ e.ekey))) ++
  t.exps.takeWhile (fun e => !(decide (sub32 now TIMER_LOOK_BACK ≤ e.ekey)))

/-- A node's key is not in the future relative to `now`: the sweep visits
and reclaims it rather than stopping at it. -/
def elapsedB (now : Nat) (e : StkSess) : Bool := !(tick_is_lt now e.ekey)

/-- A freshly bootstrapped ip-kind table of capacity `sz` and expiration
`ex`, as produced by configuration plus `stktable_init`: zero occupancy,
both indexes empty, sweep deadline never. -/
def bootIp (sz ex : Nat) : Table :=
  { ttype := StkTType.ip, key_size := 4, size := sz, current := 0, nopurge := false,
    expire := ex, keys := [], exps := [], exp_next := TICK_ETERNITY }

/-! ### Basic facts about the modelled tree primitives -/

theorem ebNext_mem {l : List StkSess} {i : Nat} {x : StkSess}
    (h : ebNext l i = some x) : x ∈ l := by
  induction l with
  | nil => simp [ebNext] at h
  | cons a as ih =>
    simp only [ebNext] at h
    split at h
    · have hx : x ∈ as := by cases as <;> simp_all [List.head?]
      exact List.mem_cons_of_mem _ hx
    · exact List.mem_cons_of_mem _ (ih h)

theorem ebNext_ne {l : List StkSess} {i : Nat} {x : StkSess}
    (hn : (eids l).Nodup) (h : ebNext l i = some x) : x.eid ≠ i := by
  induction l with
  | nil => simp [ebNext] at h
  | cons a as ih =>
    simp only [ebNext] at h
    rw [eids, List.map_cons, List.nodup_cons] at hn
    split at h
    · rename_i heq
      have hx : x ∈ as := by cases as <;> simp_all [List.head?]
      have hmem : x.eid ∈ eids as := List.mem_map_of_mem _ hx
      intro hc
      have : a.eid = i := by simpa using heq
      rw [hc, ← this] at hmem
      exact hn.1 hmem
    · exact ih hn.2 h

theorem eb32_insert_perm (l : List StkSess) (s : StkSess) :
    (eb32_insert l s).Perm (s :: l) := by
  induction l with
  | nil => simp [eb32_insert]
  | cons x xs ih =>
    simp only [eb32_insert]
    split
    · exact List.Perm.refl _
    · exact (ih.cons x).trans (List.Perm.swap s x xs)

theorem mem_eb32_insert {x : StkSess} {l : List StkSess} {s : StkSess} :
    x ∈ eb32_insert l s ↔ x = s ∨ x ∈ l := by
  rw [(eb32_insert_perm l s).mem_iff, List.mem_cons]

theorem eids_eb32_insert_perm (l : List StkSess) (s : StkSess) :
    (eids (eb32_insert l s)).Perm (s.eid :: eids l) := by
  simpa [eids] using (eb32_insert_perm l s).map (fun e => e.eid)

theorem mem_eids_filter {i k : Nat} {l : List StkSess} :
    i ∈ eids (l.filter (fun x => x.eid != k)) ↔ i ∈ eids l ∧ i ≠ k := by
  simp only [eids, List.mem_map, List.mem_filter, bne_iff_ne, ne_eq]
  constructor
  · rintro ⟨e, ⟨he, hne⟩, rfl⟩
    exact ⟨⟨e, he, rfl⟩, hne⟩
  · rintro ⟨⟨e, he, rfl⟩, hne⟩
    exact ⟨e, ⟨he, hne⟩, rfl⟩

theorem nodup_eids_filter {k : Nat} {l : List StkSess}
    (h : (eids l).Nodup) : (eids (l.filter (fun x => x.eid != k))).Nodup := by
  have hs : List.Sublist (l.filter (fun x => x.eid != k)) l := List.filter_sublist l
  simp only [eids] at h ⊢
  exact List.Nodup.sublist (hs.map (fun e => e.eid)) h

/-! ### Tick arithmetic bridges -/

theorem tick_visited_expired {k now : Nat} (hk : k ≠ 0)
    (h : tick_is_lt now k = false) : tick_is_expired k now = true := by
  simp only [tick_is_lt, decide_eq_false_iff_not, not_le] at h
  simp only [tick_is_expired, tick_isset, tick_is_le, Bool.and_eq_true, bne_iff_ne, ne_eq,
    Bool.or_eq_true, beq_iff_eq, decide_eq_true_eq]
  refine ⟨hk, ?_⟩
  simp only [sub32, W] at *
  omega

/-! ### Frame lemmas for the two scan loops -/

theorem told_loop_config (fuel : Nat) : ∀ t ebc b tb now,
    (told_loop fuel t ebc b tb now).1.ttype = t.ttype ∧
    (told_loop fuel t ebc b tb now).1.key_size = t.key_size ∧
    (told_loop fuel t ebc b tb now).1.size = t.size ∧
    (told_loop fuel t ebc b tb now).1.nopurge = t.nopurge ∧
    (told_loop fuel t ebc b tb now).1.expire = t.expire ∧
    (told_loop fuel t ebc b tb now).1.exp_next = t.exp_next := by
  induction fuel with
  | zero => intro t ebc b tb now; simp [told_loop]
  | succ fuel ih =>
    intro t ebc b tb now
    simp only [told_loop]
    split
    · split
      · simp
      · split
        · split
          · exact ih _ _ _ _ _
          · exact ih _ _ _ _ _
        · exact ih _ _ _ _ _
    · simp

theorem told_loop_batch_le (fuel : Nat) : ∀ t ebc b tb now, b ≤ tb →
    (told_loop fuel t ebc b tb now).2 ≤ tb := by
  induction fuel with
  | zero => intro t ebc b tb now hb; simpa [told_loop] using hb
  | succ fuel ih =>
    intro t ebc b tb now hb
    simp only [told_loop]
    split
    · rename_i hblt
      split
      · simpa using hb
      · split
        · split
          · exact ih _ _ _ _ _ hb
          · exact ih _ _ _ _ _ hb
        · exact ih _ _ _ _ _ hblt
    · simpa using hb

theorem told_loop_main (fuel : Nat) : ∀ t ebc b tb now,
    (eids t.exps).Nodup →
    (ebc = none ∨ ∃ e, ebc = some e ∧ e ∈ t.exps) →
    (∀ i, i ∈ eids (told_loop fuel t ebc b tb now).1.exps → i ∈ eids t.exps) ∧
    (∀ i, i ∈ eids (told_loop fuel t ebc b tb now).1.keys → i ∈ eids t.keys) ∧
    (eids (told_loop fuel t ebc b tb now).1.exps).Nodup ∧
    b ≤ (told_loop fuel t ebc b tb now).2 ∧
    (told_loop fuel t ebc b tb now).1.current ≤
      t.current - ((told_loop fuel t ebc b tb now).2 - b) := by
  induction fuel with
  | zero =>
    intro t ebc b tb now hn _
    exact ⟨fun i h => h, fun i h => h, hn, Nat.le_refl b, by simp [told_loop]⟩
  | succ fuel ih =>
    intro t ebc b tb now hn hv
    simp only [told_loop]
    split
    · split
      · exact ⟨fun i h => h, fun i h => h, hn, Nat.le_refl b, by simp⟩
      · rename_i ts hts
        have hmem : ts ∈ t.exps := by
          rcases hv with h0 | ⟨e, he, hem⟩
          · rw [h0] at hts
            simp only [eb32_first] at hts
            cases hx : t.exps with
            | nil => rw [hx] at hts; simp at hts
            | cons a as =>
              rw [hx] at hts; simp only [List.head?] at hts
              cases hts; exact List.mem_cons_self _ _
          · rw [he] at hts; cases hts; exact hem
        have hnxt : ∀ {x : StkSess}, ebNext t.exps ts.eid = some x →
            x ∈ t.exps.filter (fun y => y.eid != ts.eid) := by
          intro x hx
          refine List.mem_filter.2 ⟨ebNext_mem hx, ?_⟩
          simpa using ebNext_ne hn hx
        have hfn : (eids (t.exps.filter (fun y => y.eid != ts.eid))).Nodup :=
          nodup_eids_filter hn
        have hfv : ebNext t.exps ts.eid = none ∨
            ∃ e, ebNext t.exps ts.eid = some e ∧
              e ∈ t.exps.filter (fun y => y.eid != ts.eid) := by
          cases hx : ebNext t.exps ts.eid with
          | none => exact Or.inl rfl
          | some x => exact Or.inr ⟨x, rfl, hnxt hx⟩
        split
        · -- stamped key differs from live expire
          split
          · -- never sentinel: drop from the expiration index only
            obtain ⟨s1, s2, s3, s4, s5⟩ :=
              ih { t with exps := t.exps.filter (fun x => x.eid != ts.eid) }
                (ebNext t.exps ts.eid) b tb now hfn hfv
            refine ⟨fun i h => (mem_eids_filter.1 (s1 i h)).1, s2, s3, s4, ?_⟩
            simpa using s5
          · -- re-stamp at the live expire
            rename_i hne _
            have hne' : ts.expire ≠ ts.ekey := by simpa using hne
            have hni : ts.eid ∉ eids (t.exps.filter (fun y => y.eid != ts.eid)) := by
              intro hc; exact (mem_eids_filter.1 hc).2 rfl
            have hn2 : (eids (eb32_insert (t.exps.filter (fun y => y.eid != ts.eid))
                { ts with ekey := ts.expire })).Nodup := by
              refine ((eids_eb32_insert_perm _ _).nodup_iff).2 ?_
              exact List.nodup_cons.2 ⟨hni, hfn⟩
            have hv2 : (match ebNext t.exps ts.eid with
                | none => some { ts with ekey := ts.expire }
                | some n => if n.ekey > ({ ts with ekey := ts.expire } : StkSess).ekey
                    then some { ts with ekey := ts.expire } else some n) = none ∨
                ∃ e, (match ebNext t.exps ts.eid with
                | none => some { ts with ekey := ts.expire }
                | some n => if n.ekey > ({ ts with ekey := ts.expire } : StkSess).ekey
                    then some { ts with ekey := ts.expire } else some n) = some e ∧
                  e ∈ eb32_insert (t.exps.filter (fun y => y.eid != ts.eid))
                    { ts with ekey := ts.expire } := by
              cases hx : ebNext t.exps ts.eid with
              | none =>
                exact Or.inr ⟨_, rfl, mem_eb32_insert.2 (Or.inl rfl)⟩
              | some n =>
                by_cases hcmp : n.ekey > ({ ts with ekey := ts.expire } : StkSess).ekey
                · refine Or.inr ⟨_, by simp [hcmp], mem_eb32_insert.2 (Or.inl rfl)⟩
                · refine Or.inr ⟨n, by simp [hcmp], mem_eb32_insert.2 (Or.inr (hnxt hx))⟩
            obtain ⟨s1, s2, s3, s4, s5⟩ :=
              ih { t with exps := eb32_insert (t.exps.filter (fun x => x.eid != ts.eid)) ({ ts with ekey := ts.expire }) }
                (match ebNext t.exps ts.eid with
                  | none => some { ts with ekey := ts.expire }
                  | some n => if n.ekey > ({ ts with ekey := ts.expire } : StkSess).ekey
                      then some { ts with ekey := ts.expire } else some n)
                b tb now hn2 hv2
            refine ⟨fun i h => ?_, s2, s3, s4, by simpa using s5⟩
            have := s1 i h
            have hperm := (eids_eb32_insert_perm
              (t.exps.filter (fun y => y.eid != ts.eid)) { ts with ekey := ts.expire })
                |>.mem_iff.1 this
            rcases List.mem_cons.1 hperm with h1 | h2
            · rw [h1]; simpa [eids] using List.mem_map_of_mem (fun e => e.eid) hmem
            · exact (mem_eids_filter.1 h2).1
        · -- evict: both indexes, release, count one batch unit
          obtain ⟨s1, s2, s3, s4, s5⟩ :=
            ih { (stksess_free t) with
                  exps := t.exps.filter (fun x => x.eid != ts.eid),
                  keys := t.keys.filter (fun x => x.eid != ts.eid) }
              (ebNext t.exps ts.eid) (b+1) tb now hfn hfv
          refine ⟨fun i h => (mem_eids_filter.1 (s1 i h)).1,
            fun i h => (mem_eids_filter.1 (s2 i h)).1, s3,
            Nat.le_of_succ_le s4, ?_⟩
          have s5' := s5
          simp only [stksess_free] at s5' ⊢
          omega
    · exact ⟨fun i h => h, fun i h => h, hn, Nat.le_refl b, by simp⟩

theorem told_loop_inv (fuel : Nat) : ∀ t ebc b tb now,
    (eids t.exps).Nodup →
    (ebc = none ∨ ∃ e, ebc = some e ∧ e ∈ t.exps) →
    (∀ e ∈ t.exps, e.expire = e.ekey) →
    (∀ e ∈ t.exps, e.eid ∈ eids t.keys) →
    (∀ e ∈ (told_loop fuel t ebc b tb now).1.exps, e.expire = e.ekey) ∧
    (∀ e ∈ (told_loop fuel t ebc b tb now).1.exps,
      e.eid ∈ eids (told_loop fuel t ebc b tb now).1.keys) := by
  induction fuel with
  | zero => intro t ebc b tb now _ _ hcoh hsub; exact ⟨hcoh, hsub⟩
  | succ fuel ih =>
    intro t ebc b tb now hn hv hcoh hsub
    simp only [told_loop]
    split
    · split
      · exact ⟨hcoh, hsub⟩
      · rename_i ts hts
        have hmem : ts ∈ t.exps := by
          rcases hv with h0 | ⟨e, he, hem⟩
          · rw [h0] at hts
            simp only [eb32_first] at hts
            cases hx : t.exps with
            | nil => rw [hx] at hts; simp at hts
            | cons a as =>
              rw [hx] at hts; simp only [List.head?] at hts
              cases hts; exact List.mem_cons_self _ _
          · rw [he] at hts; cases hts; exact hem
        have hnxt : ∀ {x : StkSess}, ebNext t.exps ts.eid = some x →
            x ∈ t.exps.filter (fun y => y.eid != ts.eid) := by
          intro x hx
          refine List.mem_filter.2 ⟨ebNext_mem hx, ?_⟩
          simpa using ebNext_ne hn hx
        have hfn : (eids (t.exps.filter (fun y => y.eid != ts.eid))).Nodup :=
          nodup_eids_filter hn
        have hfv : ebNext t.exps ts.eid = none ∨
            ∃ e, ebNext t.exps ts.eid = some e ∧
              e ∈ t.exps.filter (fun y => y.eid != ts.eid) := by
          cases hx : ebNext t.exps ts.eid with
          | none => exact Or.inl rfl
          | some x => exact Or.inr ⟨x, rfl, hnxt hx⟩
        split
        · rename_i hcond
          rw [bne_iff_ne] at hcond
          exact absurd (hcoh ts hmem) hcond
        · refine ih { (stksess_free t) with
              exps := t.exps.filter (fun x => x.eid != ts.eid),
              keys := t.keys.filter (fun x => x.eid != ts.eid) }
            (ebNext t.exps ts.eid) (b+1) tb now hfn hfv ?_ ?_
          · intro e he
            exact hcoh e (List.mem_filter.1 he).1
          · intro e he
            have h1 := List.mem_filter.1 he
            refine mem_eids_filter.2 ⟨hsub e h1.1, ?_⟩
            simpa using h1.2
    · exact ⟨hcoh, hsub⟩

theorem texp_loop_config (fuel : Nat) : ∀ t ebc now,
    (texp_loop fuel t ebc now).1.ttype = t.ttype ∧
    (texp_loop fuel t ebc now).1.key_size = t.key_size ∧
    (texp_loop fuel t ebc now).1.size = t.size ∧
    (texp_loop fuel t ebc now).1.nopurge = t.nopurge ∧
    (texp_loop fuel t ebc now).1.expire = t.expire := by
  induction fuel with
  | zero => intro t ebc now; simp [texp_loop]
  | succ fuel ih =>
    intro t ebc now
    simp only [texp_loop]
    split
    · simp
    · split
      · simp
      · split
        · split
          · exact ih _ _ _
          · exact ih _ _ _
        · exact ih _ _ _

theorem texp_loop_main (fuel : Nat) : ∀ t ebc now,
    (eids t.exps).Nodup →
    (ebc = none ∨ ∃ e, ebc = some e ∧ e ∈ t.exps) →
    (∀ i, i ∈ eids (texp_loop fuel t ebc now).1.exps → i ∈ eids t.exps) ∧
    (∀ i, i ∈ eids (texp_loop fuel t ebc now).1.keys → i ∈ eids t.keys) ∧
    (eids (texp_loop fuel t ebc now).1.exps).Nodup ∧
    (texp_loop fuel t ebc now).1.current ≤ t.current := by
  induction fuel with
  | zero =>
    intro t ebc now hn _
    exact ⟨fun i h => h, fun i h => h, hn, by simp [texp_loop]⟩
  | succ fuel ih =>
    intro t ebc now hn hv
    simp only [texp_loop]
    split
    · exact ⟨fun i h => h, fun i h => h, hn, by simp⟩
    · rename_i ts hts
      have hmem : ts ∈ t.exps := by
        rcases hv with h0 | ⟨e, he, hem⟩
        · rw [h0] at hts
          simp only [eb32_first] at hts
          cases hx : t.exps with
          | nil => rw [hx] at hts; simp at hts
          | cons a as =>
            rw [hx] at hts; simp only [List.head?] at hts
            cases hts; exact List.mem_cons_self _ _
        · rw [he] at hts; cases hts; exact hem
      have hnxt : ∀ {x : StkSess}, ebNext t.exps ts.eid = some x →
          x ∈ t.exps.filter (fun y => y.eid != ts.eid) := by
        intro x hx
        refine List.mem_filter.2 ⟨ebNext_mem hx, ?_⟩
        simpa using ebNext_ne hn hx
      have hfn : (eids (t.exps.filter (fun y => y.eid != ts.eid))).Nodup :=
        nodup_eids_filter hn
      have hfv : ebNext t.exps ts.eid = none ∨
          ∃ e, ebNext t.exps ts.eid = some e ∧
            e ∈ t.exps.filter (fun y => y.eid != ts.eid) := by
        cases hx : ebNext t.exps ts.eid with
        | none => exact Or.inl rfl
        | some x => exact Or.inr ⟨x, rfl, hnxt hx⟩
      split
      · exact ⟨fun i h => h, fun i h => h, hn, by simp⟩
      · split
        · split
          · -- drop never-sentinel entry from the expiration index only
            obtain ⟨s1, s2, s3, s4⟩ :=
              ih { t with exps := t.exps.filter (fun x => x.eid != ts.eid) }
                (ebNext t.exps ts.eid) now hfn hfv
            exact ⟨fun i h => (mem_eids_filter.1 (s1 i h)).1, s2, s3, by simpa using s4⟩
          · -- re-stamp at the live expire
            have hni : ts.eid ∉ eids (t.exps.filter (fun y => y.eid != ts.eid)) := by
              intro hc; exact (mem_eids_filter.1 hc).2 rfl
            have hn2 : (eids (eb32_insert (t.exps.filter (fun y => y.eid != ts.eid))
                { ts with ekey := ts.expire })).Nodup := by
              refine ((eids_eb32_insert_perm _ _).nodup_iff).2 ?_
              exact List.nodup_cons.2 ⟨hni, hfn⟩
            have hv2 : (match ebNext t.exps ts.eid with
                | none => some { ts with ekey := ts.expire }
                | some n => if n.ekey > ({ ts with ekey := ts.expire } : StkSess).ekey
                    then some { ts with ekey := ts.expire } else some n) = none ∨
                ∃ e, (match ebNext t.exps ts.eid with
                | none => some { ts with ekey := ts.expire }
                | some n => if n.ekey > ({ ts with ekey := ts.expire } : StkSess).ekey
                    then some { ts with ekey := ts.expire } else some n) = some e ∧
                  e ∈ eb32_insert (t.exps.filter (fun y => y.eid != ts.eid))
                    { ts with ekey := ts.expire } := by
              cases hx : ebNext t.exps ts.eid with
              | none =>
                exact Or.inr ⟨_, rfl, mem_eb32_insert.2 (Or.inl rfl)⟩
              | some n =>
                by_cases hcmp : n.ekey > ({ ts with ekey := ts.expire } : StkSess).ekey
                · refine Or.inr ⟨_, by simp [hcmp], mem_eb32_insert.2 (Or.inl rfl)⟩
                · refine Or.inr ⟨n, by simp [hcmp], mem_eb32_insert.2 (Or.inr (hnxt hx))⟩
            obtain ⟨s1, s2, s3, s4⟩ :=
              ih { t with exps := eb32_insert (t.exps.filter (fun x => x.eid != ts.eid)) ({ ts with ekey := ts.expire }) }
                (match ebNext t.exps ts.eid with
                  | none => some { ts with ekey := ts.expire }
                  | some n => if n.ekey > ({ ts with ekey := ts.expire } : StkSess).ekey
                      then some { ts with ekey := ts.expire } else some n)
                now hn2 hv2
            refine ⟨fun i h => ?_, s2, s3, by simpa using s4⟩
            have := s1 i h
            have hperm := (eids_eb32_insert_perm
              (t.exps.filter (fun y => y.eid != ts.eid)) { ts with ekey := ts.expire })
                |>.mem_iff.1 this
            rcases List.mem_cons.1 hperm with h1 | h2
            · rw [h1]; simpa [eids] using List.mem_map_of_mem (fun e => e.eid) hmem
            · exact (mem_eids_filter.1 h2).1
        · -- evict from both indexes and free
          obtain ⟨s1, s2, s3, s4⟩ :=
            ih { (stksess_free t) with
                  exps := t.exps.filter (fun x => x.eid != ts.eid),
                  keys := t.keys.filter (fun x => x.eid != ts.eid) }
              (ebNext t.exps ts.eid) now hfn hfv
          refine ⟨fun i h => (mem_eids_filter.1 (s1 i h)).1,
            fun i h => (mem_eids_filter.1 (s2 i h)).1, s3, ?_⟩
          have s4' := s4
          simp only [stksess_free] at s4' ⊢
          omega

theorem texp_loop_inv (fuel : Nat) : ∀ t ebc now,
    (eids t.exps).Nodup →
    (ebc = none ∨ ∃ e, ebc = some e ∧ e ∈ t.exps) →
    (∀ e ∈ t.exps, e.expire = e.ekey) →
    (∀ e ∈ t.exps, e.eid ∈ eids t.keys) →
    (∀ e ∈ (texp_loop fuel t ebc now).1.exps, e.expire = e.ekey) ∧
    (∀ e ∈ (texp_loop fuel t ebc now).1.exps,
      e.eid ∈ eids (texp_loop fuel t ebc now).1.keys) := by
  induction fuel with
  | zero => intro t ebc now _ _ hcoh hsub; exact ⟨hcoh, hsub⟩
  | succ fuel ih =>
    intro t ebc now hn hv hcoh hsub
    simp only [texp_loop]
    split
    · exact ⟨hcoh, hsub⟩
    · rename_i ts hts
      have hmem : ts ∈ t.exps := by
        rcases hv with h0 | ⟨e, he, hem⟩
        · rw [h0] at hts
          simp only [eb32_first] at hts
          cases hx : t.exps with
          | nil => rw [hx] at hts; simp at hts
          | cons a as =>
            rw [hx] at hts; simp only [List.head?] at hts
            cases hts; exact List.mem_cons_self _ _
        · rw [he] at hts; cases hts; exact hem
      have hnxt : ∀ {x : StkSess}, ebNext t.exps ts.eid = some x →
          x ∈ t.exps.filter (fun y => y.eid != ts.eid) := by
        intro x hx
        refine List.mem_filter.2 ⟨ebNext_mem hx, ?_⟩
        simpa using ebNext_ne hn hx
      have hfn : (eids (t.exps.filter (fun y => y.eid != ts.eid))).Nodup :=
        nodup_eids_filter hn
      have hfv : ebNext t.exps ts.eid = none ∨
          ∃ e, ebNext t.exps ts.eid = some e ∧
            e ∈ t.exps.filter (fun y => y.eid != ts.eid) := by
        cases hx : ebNext t.exps ts.eid with
        | none => exact Or.inl rfl
        | some x => exact Or.inr ⟨x, rfl, hnxt hx⟩
      split
      · exact ⟨hcoh, hsub⟩
      · rename_i hlt
        split
        · rename_i hnexp
          split
          · -- drop branch: never-sentinel entry, leaves the key index alone
            refine ih { t with exps := t.exps.filter (fun x => x.eid != ts.eid) }
              (ebNext t.exps ts.eid) now hfn hfv ?_ ?_
            · intro e he; exact hcoh e (List.mem_filter.1 he).1
            · intro e he; exact hsub e (List.mem_filter.1 he).1
          · -- re-stamp branch: impossible for a coherent index
            rename_i hset
            have hk : ts.ekey ≠ 0 := by
              have : ts.expire ≠ 0 := by simpa [tick_isset] using hset
              rw [← hcoh ts hmem]; exact this
            have hlt' : tick_is_lt now ts.ekey = false := by
              cases hx : tick_is_lt now ts.ekey with
              | false => rfl
              | true => exact absurd hx hlt
            have := tick_visited_expired hk hlt'
            rw [← hcoh ts hmem] at this
            rw [this] at hnexp
            simp at hnexp
        · -- evict branch
          refine ih { (stksess_free t) with
                exps := t.exps.filter (fun x => x.eid != ts.eid),
                keys := t.keys.filter (fun x => x.eid != ts.eid) }
            (ebNext t.exps ts.eid) now hfn hfv ?_ ?_
          · intro e he; exact hcoh e (List.mem_filter.1 he).1
          · intro e he
            have h1 := List.mem_filter.1 he
            refine mem_eids_filter.2 ⟨hsub e h1.1, ?_⟩
            simpa using h1.2

theorem lookup_ge_valid (l : List StkSess) (k : Nat) :
    eb32_lookup_ge l k = none ∨ ∃ e, eb32_lookup_ge l k = some e ∧ e ∈ l := by
  cases hx : eb32_lookup_ge l k with
  | none => exact Or.inl rfl
  | some e => exact Or.inr ⟨e, rfl, List.mem_of_find?_eq_some hx⟩

theorem stktable_store_inv (t : Table) (ts : StkSess) (sid : Int) (now : Nat)
    (hn : (eids t.exps).Nodup) (hfresh : ts.eid ∉ eids t.exps)
    (hcoh : ∀ e ∈ t.exps, e.expire = e.ekey)
    (hsub : ∀ e ∈ t.exps, e.eid ∈ eids t.keys) :
    (eids (stktable_store t ts sid now).1.exps).Nodup ∧
    (∀ e ∈ (stktable_store t ts sid now).1.exps, e.expire = e.ekey) ∧
    (∀ e ∈ (stktable_store t ts sid now).1.exps,
      e.eid ∈ eids (stktable_store t ts sid now).1.keys) ∧
    (stktable_store t ts sid now).1.current = t.current ∧
    (stktable_store t ts sid now).1.size = t.size := by
  simp only [stktable_store]
  split
  · rename_i hfind
    have hn2 : (eids (eb32_insert t.exps ({ ts with sid := sid, expire := tick_add now (MS_TO_TICKS t.expire), ekey := tick_add now (MS_TO_TICKS t.expire) }))).Nodup := by
      refine ((eids_eb32_insert_perm _ _).nodup_iff).2 (List.nodup_cons.2 ⟨?_, hn⟩)
      simpa using hfresh
    have hc2 : ∀ e ∈ eb32_insert t.exps ({ ts with sid := sid, expire := tick_add now (MS_TO_TICKS t.expire), ekey := tick_add now (MS_TO_TICKS t.expire) }), e.expire = e.ekey := by
      intro e he
      rcases mem_eb32_insert.1 he with h1 | h2
      · rw [h1]
      · exact hcoh e h2
    have hs2 : ∀ e ∈ eb32_insert t.exps ({ ts with sid := sid, expire := tick_add now (MS_TO_TICKS t.expire), ekey := tick_add now (MS_TO_TICKS t.expire) }), e.eid ∈ eids (t.keys ++ [{ ts with sid := sid, expire := tick_add now (MS_TO_TICKS t.expire), ekey := tick_add now (MS_TO_TICKS t.expire) }]) := by
      intro e he
      rcases mem_eb32_insert.1 he with h1 | h2
      · rw [h1]
        simp [eids]
      · simp only [eids, List.map_append, List.mem_append]
        exact Or.inl (hsub e h2)
    split <;> exact ⟨hn2, hc2, hs2, rfl, rfl⟩
  · rename_i e hfind
    have hmap : eids (t.keys.map (fun x =>
        if x.eid == e.eid then (if x.sid != sid then { x with sid := sid } else x) else x)) =
        eids t.keys := by
      simp only [eids, List.map_map]
      refine List.map_congr_left ?_
      intro x _
      simp only [Function.comp]
      split
      · split <;> rfl
      · rfl
    refine ⟨hn, hcoh, ?_, rfl, rfl⟩
    intro x hx
    rw [hmap]
    exact hsub x hx

theorem stksess_new_inv (t : Table) (key : List Nat) (key_len : Nat) (eid : Nat)
    (alloc_ok : Bool) (now : Nat)
    (hn : (eids t.exps).Nodup)
    (hcoh : ∀ e ∈ t.exps, e.expire = e.ekey)
    (hsub : ∀ e ∈ t.exps, e.eid ∈ eids t.keys)
    (hcap : t.current ≤ t.size) :
    (eids (stksess_new t key key_len eid alloc_ok now).1.exps).Nodup ∧
    (∀ e ∈ (stksess_new t key key_len eid alloc_ok now).1.exps, e.expire = e.ekey) ∧
    (∀ e ∈ (stksess_new t key key_len eid alloc_ok now).1.exps,
      e.eid ∈ eids (stksess_new t key key_len eid alloc_ok now).1.keys) ∧
    (stksess_new t key key_len eid alloc_ok now).1.current ≤
      (stksess_new t key key_len eid alloc_ok now).1.size := by
  have hv := lookup_ge_valid t.exps (sub32 now TIMER_LOOK_BACK)
  have hm := told_loop_main (2 * t.exps.length + 2) t
    (eb32_lookup_ge t.exps (sub32 now TIMER_LOOK_BACK)) 0 (t.size >>> 8) now hn hv
  have hi := told_loop_inv (2 * t.exps.length + 2) t
    (eb32_lookup_ge t.exps (sub32 now TIMER_LOOK_BACK)) 0 (t.size >>> 8) now hn hv hcoh hsub
  have hcfg := told_loop_config (2 * t.exps.length + 2) t
    (eb32_lookup_ge t.exps (sub32 now TIMER_LOOK_BACK)) 0 (t.size >>> 8) now
  have h5 := hm.2.2.2.2
  have hsz := hcfg.2.2.1
  have hble := told_loop_batch_le (2 * t.exps.length + 2) t
    (eb32_lookup_ge t.exps (sub32 now TIMER_LOOK_BACK)) 0 (t.size >>> 8) now (Nat.zero_le _)
  have hshift : t.size >>> 8 = t.size / 2 ^ 8 := Nat.shiftRight_eq_div_pow t.size 8
  simp only [stksess_new, stktable_trash_oldest] at *
  split
  · rename_i hfull
    split
    · exact ⟨hn, hcoh, hsub, hcap⟩
    · split
      · exact ⟨hm.2.2.1, hi.1, hi.2, by dsimp only; omega⟩
      · rename_i hb
        split
        · refine ⟨hm.2.2.1, hi.1, hi.2, ?_⟩
          dsimp only
          omega
        · exact ⟨hm.2.2.1, hi.1, hi.2, by dsimp only; omega⟩
  · rename_i hne
    split
    · exact ⟨hn, hcoh, hsub, by dsimp only; omega⟩
    · exact ⟨hn, hcoh, hsub, hcap⟩

theorem reach_inv {t : Table} (h : Reach t) :
    (eids t.exps).Nodup ∧
    (∀ e ∈ t.exps, e.expire = e.ekey) ∧
    (∀ e ∈ t.exps, e.eid ∈ eids t.keys) ∧
    t.current ≤ t.size := by
  induction h with
  | boot tt ks sz np ex => exact ⟨by simp [eids], by simp, by simp, by simp⟩
  | new t key key_len eid alloc_ok now _ ih =>
    exact stksess_new_inv t key key_len eid alloc_ok now ih.1 ih.2.1 ih.2.2.1 ih.2.2.2
  | store t ts sid now _ hfresh ih =>
    have := stktable_store_inv t ts sid now ih.1 hfresh ih.2.1 ih.2.2.1
    exact ⟨this.1, this.2.1, this.2.2.1, by rw [this.2.2.2.1, this.2.2.2.2]; exact ih.2.2.2⟩
  | sweep t now _ ih =>
    have hv := lookup_ge_valid t.exps (sub32 now TIMER_LOOK_BACK)
    have hm := texp_loop_main (2 * t.exps.length + 2) t
      (eb32_lookup_ge t.exps (sub32 now TIMER_LOOK_BACK)) now ih.1 hv
    have hi := texp_loop_inv (2 * t.exps.length + 2) t
      (eb32_lookup_ge t.exps (sub32 now TIMER_LOOK_BACK)) now ih.1 hv ih.2.1 ih.2.2.1
    have hcfg := texp_loop_config (2 * t.exps.length + 2) t
      (eb32_lookup_ge t.exps (sub32 now TIMER_LOOK_BACK)) now
    simp only [stktable_trash_expired]
    refine ⟨hm.2.2.1, hi.1, hi.2, ?_⟩
    rw [hcfg.2.2.1]
    exact le_trans hm.2.2.2 ih.2.2.2
  | release t _ ih =>
    refine ⟨ih.1, ih.2.1, ih.2.2.1, ?_⟩
    simp only [stksess_free]
    omega

/-- Any loop invocation whose batch budget is already spent returns the
state unchanged, so a batch size of zero makes eviction a no-op. -/
theorem told_loop_spent (fuel : Nat) (t : Table) (ebc : Option StkSess)
    (b tb now : Nat) (h : ¬ b < tb) : told_loop fuel t ebc b tb now = (t, b) := by
  cases fuel with
  | zero => rfl
  | succ fuel => simp [told_loop, h]

theorem trash_oldest_zero (t : Table) (now : Nat) :
    stktable_trash_oldest t 0 now = (t, 0) := by
  simp only [stktable_trash_oldest]
  exact told_loop_spent _ _ _ _ _ _ (by omega)

/-! ### C4 — capacity invariant -/

/-- C4: for every reachable table state, `0 ≤ occupancy ≤ capacity` (the
lower bound is inherent to the ℕ model), and a table with capacity 0 never
lets `stksess_new` produce an entry, so `store` can never insert into it. -/
theorem capacity_invariant :
    (∀ t, Reach t → t.current ≤ t.size) ∧
    (∀ t, Reach t → t.size = 0 →
      ∀ key key_len eid alloc_ok now,
        (stksess_new t key key_len eid alloc_ok now).2 = none) := by
  constructor
  · intro t h
    exact (reach_inv h).2.2.2
  · intro t h h0 key key_len eid alloc_ok now
    have hc : t.current = 0 := by
      have := (reach_inv h).2.2.2
      omega
    have hz : t.size >>> 8 = 0 := by rw [h0]; rfl
    simp only [stksess_new]
    rw [if_pos (by rw [hc, h0])]
    split
    · rfl
    · rw [hz, trash_oldest_zero]
      simp

/-- Witness for C4 at a bootstrapped capacity-0 table. -/
theorem capacity_invariant_witness :
    (bootIp 0 50).current ≤ (bootIp 0 50).size ∧
    (stksess_new (bootIp 0 50) [1,2,3,4] 4 1 true 100).2 = none :=
  ⟨capacity_invariant.1 (bootIp 0 50) (Reach.boot StkTType.ip 4 0 false 50),
   capacity_invariant.2 (bootIp 0 50) (Reach.boot StkTType.ip 4 0 false 50) rfl
     [1,2,3,4] 4 1 true 100⟩

/-! ### C8 — key normalization -/

/-- C8: for a String-kind table the normalized key is exactly the first
`min(key_size - 1, input_length)` bytes of the raw key followed by one zero
terminator, so an over-long key normalizes exactly like its first
`key_size - 1` bytes (silent truncation, never rejection); for the other
kinds exactly `key_size` bytes are copied verbatim. -/
theorem stksess_key_spec :
    (∀ t key key_len, t.ttype = StkTType.string → key_len ≤ key.length →
      stksess_key t key key_len = key.take (min (t.key_size - 1) key_len) ++ [0] ∧
      (stksess_key t key key_len).length = min (t.key_size - 1) key_len + 1) ∧
    (∀ t key key_len, t.ttype = StkTType.string → t.key_size - 1 < key_len →
      stksess_key t key key_len =
        stksess_key t (key.take (t.key_size - 1)) (t.key_size - 1)) ∧
    (∀ t key key_len, t.ttype ≠ StkTType.string →
      stksess_key t key key_len = key.take t.key_size ∧
      (t.key_size ≤ key.length → (stksess_key t key key_len).length = t.key_size)) := by
  refine ⟨?_, ?_, ?_⟩
  · intro t key key_len hs hlen
    refine ⟨by simp [stksess_key, hs], ?_⟩
    simp only [stksess_key, hs, bne_self_eq_false, Bool.false_eq_true, if_false,
      List.length_append, List.length_take, List.length_singleton]
    omega
  · intro t key key_len hs hgt
    have hmin : min (t.key_size - 1) key_len = t.key_size - 1 :=
      Nat.min_eq_left (Nat.le_of_lt hgt)
    simp [stksess_key, hs, hmin, List.take_take]
  · intro t key key_len hs
    have hb : (t.ttype != StkTType.string) = true := by simpa using hs
    refine ⟨by simp [stksess_key, hb], ?_⟩
    intro hks
    simp only [stksess_key, hb, if_true, List.length_take]
    omega

/-- Witness for C8: a String-kind table with `key_size = 4` truncates the
four-byte key `[7,8,9,10]` exactly like its first three bytes, and an
ip-kind table copies four bytes verbatim. -/
theorem stksess_key_spec_witness :
    (stksess_key { bootIp 10 0 with ttype := StkTType.string } [7,8,9,10] 4 =
      stksess_key { bootIp 10 0 with ttype := StkTType.string } ([7,8,9,10].take
        (({ bootIp 10 0 with ttype := StkTType.string } : Table).key_size - 1))
        (({ bootIp 10 0 with ttype := StkTType.string } : Table).key_size - 1)) ∧
    stksess_key (bootIp 10 0) [7,8,9,10] 4 = [7,8,9,10].take (bootIp 10 0).key_size :=
  ⟨stksess_key_spec.2.1 { bootIp 10 0 with ttype := StkTType.string } [7,8,9,10] 4 rfl
      (by decide),
   (stksess_key_spec.2.2 (bootIp 10 0) [7,8,9,10] 4 (by decide)).1⟩

/-! ### C2 — eviction batch size for small tables -/

/-- C2: the failing input.  A full table of capacity 100 with `no_purge`
false and an evictable session in its expiration index still fails a novel
allocation, because the batch size is `100 >> 8 = 0` and the eviction loop
then trashes nothing; the same session is evicted as soon as the batch size
is at least 1, so evictable work was available. -/
theorem small_table_eviction_noop :
    stksess_new
      (Table.mk StkTType.ip 4 100 100 false 1000
        [StkSess.mk 1 [9,9,9,9] 5 500 500] [StkSess.mk 1 [9,9,9,9] 5 500 500] 500)
      [1,2,3,4] 4 42 true 600 =
      (Table.mk StkTType.ip 4 100 100 false 1000
        [StkSess.mk 1 [9,9,9,9] 5 500 500] [StkSess.mk 1 [9,9,9,9] 5 500 500] 500,
       none) ∧
    (stktable_trash_oldest
      (Table.mk StkTType.ip 4 100 100 false 1000
        [StkSess.mk 1 [9,9,9,9] 5 500 500] [StkSess.mk 1 [9,9,9,9] 5 500 500] 500)
      1 600).2 = 1 :=
  ⟨by decide, by decide⟩

/-! ### C1 — membership of the expiration index -/

/-- C1 is refuted on the code: on a table whose ttl is 0 (entries never
expire, no sweep task runs), a successful store of a new key still inserts
the session into the expiration index — the reachable state below has
`expire = 0` yet a live session (member of the key index) sits in `exps`. -/
theorem store_ttl0_exps_counterexample :
    Reach (stktable_store (stksess_new (bootIp 10 0) [1,2,3,4] 4 1 true 100).1
      (StkSess.mk 1 [1,2,3,4] 0 0 0) 7 100).1 ∧
    (stktable_store (stksess_new (bootIp 10 0) [1,2,3,4] 4 1 true 100).1
      (StkSess.mk 1 [1,2,3,4] 0 0 0) 7 100).1.expire = 0 ∧
    ∃ e ∈ (stktable_store (stksess_new (bootIp 10 0) [1,2,3,4] 4 1 true 100).1
      (StkSess.mk 1 [1,2,3,4] 0 0 0) 7 100).1.exps,
      e.eid ∈ eids (stktable_store (stksess_new (bootIp 10 0) [1,2,3,4] 4 1 true 100).1
        (StkSess.mk 1 [1,2,3,4] 0 0 0) 7 100).1.keys := by
  refine ⟨?_, by decide, ?_⟩
  · exact Reach.store _ _ _ _
      (Reach.new (bootIp 10 0) [1,2,3,4] 4 1 true 100 (Reach.boot StkTType.ip 4 10 false 0))
      (by decide)
  · exact ⟨StkSess.mk 1 [1,2,3,4] 7 100 100, by decide, by decide⟩

/-- C1 (amended): in every reachable state every expiration-index member is
live in the key index; a successful store of a new key always inserts the
session into BOTH indexes, stamping `expire = index_key = now + ttl`
regardless of the ttl, and it lowers the sweep deadline with `tick_first`
only when the table's ttl is nonzero. -/
theorem store_expiration_index_spec :
    (∀ t, Reach t → ∀ e ∈ t.exps, e.eid ∈ eids t.keys) ∧
    (∀ t ts sid now,
      t.keys.find? (fun x => key_match t x.skey ts.skey) = none →
      (stktable_store t ts sid now).2 = 0 ∧
      (∃ e ∈ (stktable_store t ts sid now).1.exps,
        e.eid = ts.eid ∧ e.expire = tick_add now (MS_TO_TICKS t.expire) ∧
        e.ekey = tick_add now (MS_TO_TICKS t.expire)) ∧
      (∃ e ∈ (stktable_store t ts sid now).1.keys, e.eid = ts.eid ∧ e.sid = sid) ∧
      (stktable_store t ts sid now).1.exp_next =
        (if t.expire ≠ 0 then tick_first (tick_add now (MS_TO_TICKS t.expire)) t.exp_next
         else t.exp_next)) := by
  constructor
  · intro t h
    exact (reach_inv h).2.2.1
  · intro t ts sid now hfind
    simp only [stktable_store]
    split
    · split
      · rename_i hE
        refine ⟨rfl, ?_, ?_, by simp [hE]⟩
        · exact ⟨_, mem_eb32_insert.2 (Or.inl rfl), rfl, rfl, rfl⟩
        · exact ⟨_, List.mem_append_right t.keys (List.mem_singleton_self _), rfl, rfl⟩
      · rename_i hE
        refine ⟨rfl, ?_, ?_, by simp [hE]⟩
        · exact ⟨_, mem_eb32_insert.2 (Or.inl rfl), rfl, rfl, rfl⟩
        · exact ⟨_, List.mem_append_right t.keys (List.mem_singleton_self _), rfl, rfl⟩
    · rename_i e heq
      rw [hfind] at heq
      cases heq

/-- Witness for the amended C1 on a bootstrapped table with ttl 5 ms. -/
theorem store_expiration_index_spec_witness :
    (∀ e ∈ (bootIp 10 5).exps, e.eid ∈ eids (bootIp 10 5).keys) ∧
    ((stktable_store (bootIp 10 5) (StkSess.mk 1 [1,2,3,4] 0 0 0) 7 100).2 = 0 ∧
      (∃ e ∈ (stktable_store (bootIp 10 5) (StkSess.mk 1 [1,2,3,4] 0 0 0) 7 100).1.exps,
        e.eid = (StkSess.mk 1 [1,2,3,4] 0 0 0).eid ∧
        e.expire = tick_add 100 (MS_TO_TICKS (bootIp 10 5).expire) ∧
        e.ekey = tick_add 100 (MS_TO_TICKS (bootIp 10 5).expire)) ∧
      (∃ e ∈ (stktable_store (bootIp 10 5) (StkSess.mk 1 [1,2,3,4] 0 0 0) 7 100).1.keys,
        e.eid = (StkSess.mk 1 [1,2,3,4] 0 0 0).eid ∧ e.sid = 7) ∧
      (stktable_store (bootIp 10 5) (StkSess.mk 1 [1,2,3,4] 0 0 0) 7 100).1.exp_next =
        (if (bootIp 10 5).expire ≠ 0 then
          tick_first (tick_add 100 (MS_TO_TICKS (bootIp 10 5).expire)) (bootIp 10 5).exp_next
         else (bootIp 10 5).exp_next)) :=
  ⟨store_expiration_index_spec.1 (bootIp 10 5) (Reach.boot StkTType.ip 4 10 false 5),
   store_expiration_index_spec.2 (bootIp 10 5) (StkSess.mk 1 [1,2,3,4] 0 0 0) 7 100
     (by decide)⟩

/-! ### C3 — key uniqueness and the duplicate path of store -/

/-- C3: `store` preserves "at most one live entry per normalized key"; when
the key is already present it returns the duplicate indication 1, updates
only that entry's server id (leaving every other field and every other
entry intact), performs no index mutation, does not consume the caller's
session, and never changes occupancy. -/
theorem stktable_store_dup_spec :
    (∀ t ts sid now,
      List.Pairwise (fun a b => key_match t a.skey b.skey = false) t.keys →
      List.Pairwise (fun a b => key_match t a.skey b.skey = false)
        (stktable_store t ts sid now).1.keys) ∧
    (∀ t ts sid now e,
      t.keys.find? (fun x => key_match t x.skey ts.skey) = some e →
      (stktable_store t ts sid now).2 = 1 ∧
      (stktable_store t ts sid now).1.exps = t.exps ∧
      (stktable_store t ts sid now).1.current = t.current ∧
      eids (stktable_store t ts sid now).1.keys = eids t.keys ∧
      (stktable_store t ts sid now).1.keys = t.keys.map (fun x =>
        if x.eid == e.eid then { x with sid := sid } else x)) := by
  constructor
  · intro t ts sid now hp
    simp only [stktable_store]
    split
    · rename_i heq
      have hcross : ∀ a ∈ t.keys, key_match t a.skey ts.skey = false := by
        intro a ha
        have := List.find?_eq_none.1 heq a ha
        simpa using this
      have happ : List.Pairwise (fun a b => key_match t a.skey b.skey = false)
          (t.keys ++ [{ ts with sid := sid, expire := tick_add now (MS_TO_TICKS t.expire), ekey := tick_add now (MS_TO_TICKS t.expire) }]) := by
        refine List.pairwise_append.2 ⟨hp, List.pairwise_singleton _ _, ?_⟩
        intro a ha b hb
        have hb' : b = { ts with sid := sid, expire := tick_add now (MS_TO_TICKS t.expire), ekey := tick_add now (MS_TO_TICKS t.expire) } := by
          simpa using hb
        rw [hb']
        exact hcross a ha
      split
      · exact happ
      · exact happ
    · rename_i e heq
      have hskey : ∀ x : StkSess,
          ((if x.eid == e.eid then (if x.sid != sid then { x with sid := sid } else x)
            else x) : StkSess).skey = x.skey := by
        intro x
        split
        · split <;> rfl
        · rfl
      refine List.Pairwise.map _ ?_ hp
      intro a b hab
      rw [hskey, hskey]
      exact hab
  · intro t ts sid now e hfind
    simp only [stktable_store]
    split
    · rename_i heq
      rw [hfind] at heq
      cases heq
    · rename_i e' heq
      rw [hfind] at heq
      have he : e' = e := by cases heq; rfl
      subst he
      refine ⟨rfl, rfl, rfl, ?_, ?_⟩
      · simp only [eids, List.map_map]
        refine List.map_congr_left ?_
        intro x _
        simp only [Function.comp]
        split
        · split <;> rfl
        · rfl
      · refine List.map_congr_left ?_
        intro x _
        split
        · rename_i hid
          split
          · rfl
          · rename_i hsid
            have hx : x.sid = sid := by simpa using hsid
            cases x
            simp_all
        · rfl

/-- Witness for C3: a second store of the key `[9,9,9,9]` against a
one-entry table reports a duplicate, rewrites that entry's server id and
touches nothing else. -/
theorem stktable_store_dup_spec_witness :
    List.Pairwise (fun a b =>
      key_match { bootIp 10 5 with keys := [StkSess.mk 1 [9,9,9,9] 5 105 105] } a.skey b.skey = false)
      (stktable_store { bootIp 10 5 with keys := [StkSess.mk 1 [9,9,9,9] 5 105 105] }
        (StkSess.mk 2 [9,9,9,9] 0 0 0) 7 200).1.keys ∧
    (stktable_store { bootIp 10 5 with keys := [StkSess.mk 1 [9,9,9,9] 5 105 105] }
      (StkSess.mk 2 [9,9,9,9] 0 0 0) 7 200).2 = 1 :=
  ⟨stktable_store_dup_spec.1 _ (StkSess.mk 2 [9,9,9,9] 0 0 0) 7 200
      (by decide),
   (stktable_store_dup_spec.2 { bootIp 10 5 with keys := [StkSess.mk 1 [9,9,9,9] 5 105 105] }
      (StkSess.mk 2 [9,9,9,9] 0 0 0) 7 200 (StkSess.mk 1 [9,9,9,9] 5 105 105)
      (by decide)).1⟩

/-! ### C9 — allocation failure taxonomy -/

/-- C9: `stksess_new` yields no session exactly when (a) the table is at
capacity with `no_purge` set, (b) it is at capacity and the eviction batch
trashed nothing, or (c) the slot allocator failed; and on allocator failure
no new session identity appears in either index (the eviction that may
already have run only removes or re-stamps existing sessions). -/
theorem stksess_new_failure_spec (t : Table) (key : List Nat) (key_len : Nat)
    (eid : Nat) (alloc_ok : Bool) (now : Nat) (hn : (eids t.exps).Nodup) :
    ((stksess_new t key key_len eid alloc_ok now).2 = none ↔
      ((t.current = t.size ∧ (t.nopurge = true ∨
        (stktable_trash_oldest t (t.size >>> 8) now).2 = 0)) ∨ alloc_ok = false)) ∧
    (alloc_ok = false →
      (∀ i, i ∈ eids (stksess_new t key key_len eid alloc_ok now).1.keys →
        i ∈ eids t.keys) ∧
      (∀ i, i ∈ eids (stksess_new t key key_len eid alloc_ok now).1.exps →
        i ∈ eids t.exps)) := by
  have hv := lookup_ge_valid t.exps (sub32 now TIMER_LOOK_BACK)
  have hm := told_loop_main (2 * t.exps.length + 2) t
    (eb32_lookup_ge t.exps (sub32 now TIMER_LOOK_BACK)) 0 (t.size >>> 8) now hn hv
  simp only [stksess_new, stktable_trash_oldest]
  split
  · rename_i hfull
    split
    · rename_i hnp
      refine ⟨by simp [hfull, hnp], fun _ => ⟨fun i h => h, fun i h => h⟩⟩
    · rename_i hnp
      split
      · rename_i hr
        refine ⟨by simp [hfull, hr], fun _ => ⟨hm.2.1, hm.1⟩⟩
      · rename_i hr
        split
        · rename_i ha
          refine ⟨by simp [ha, hfull, hnp, hr], ?_⟩
          intro hfa
          rw [ha] at hfa
          cases hfa
        · rename_i ha
          have ha' : alloc_ok = false := by
            cases alloc_ok with
            | false => rfl
            | true => exact absurd rfl ha
          refine ⟨by simp [ha'], fun _ => ⟨hm.2.1, hm.1⟩⟩
  · rename_i hfull
    split
    · rename_i ha
      refine ⟨by simp [ha, hfull], ?_⟩
      intro hfa
      rw [ha] at hfa
      cases hfa
    · rename_i ha
      have ha' : alloc_ok = false := by
        cases alloc_ok with
        | false => rfl
        | true => exact absurd rfl ha
      refine ⟨by simp [ha'], fun _ => ⟨fun i h => h, fun i h => h⟩⟩

/-- Witness for C9: a full `no_purge` table rejects a novel key, and an
allocator failure on an empty table leaves both indexes untouched. -/
theorem stksess_new_failure_spec_witness :
    ((stksess_new { bootIp 5 0 with current := 5, nopurge := true } [1,2,3,4] 4 9 true 100).2
      = none ↔
      (({ bootIp 5 0 with current := 5, nopurge := true } : Table).current =
          ({ bootIp 5 0 with current := 5, nopurge := true } : Table).size ∧
        (({ bootIp 5 0 with current := 5, nopurge := true } : Table).nopurge = true ∨
          (stktable_trash_oldest { bootIp 5 0 with current := 5, nopurge := true }
            (({ bootIp 5 0 with current := 5, nopurge := true } : Table).size >>> 8) 100).2
            = 0)) ∨ (true : Bool) = false) ∧
    (∀ i, i ∈ eids (stksess_new (bootIp 5 0) [1,2,3,4] 4 9 false 100).1.keys →
      i ∈ eids (bootIp 5 0).keys) :=
  ⟨(stksess_new_failure_spec { bootIp 5 0 with current := 5, nopurge := true }
      [1,2,3,4] 4 9 true 100 (by decide)).1,
   ((stksess_new_failure_spec (bootIp 5 0) [1,2,3,4] 4 9 false 100 (by decide)).2 rfl).1⟩

/-! ### C10 — allocation and release postconditions -/

/-- C10: a successful allocation returns a session with server id 0 (unset)
and the normalized key, attached to neither index, and raises occupancy by
exactly one over the table the slot was taken from (the post-eviction table
when eviction ran); `stksess_free` lowers occupancy by one, with no guard
in the code (the ℕ model needs `1 ≤ current` to state "by exactly one"). -/
theorem stksess_new_init_spec :
    (∀ t key key_len eid alloc_ok now,
      (eids t.exps).Nodup → eid ∉ eids t.keys → eid ∉ eids t.exps →
      ∀ e, (stksess_new t key key_len eid alloc_ok now).2 = some e →
        e.sid = 0 ∧ e.eid = eid ∧ e.skey = stksess_key t key key_len ∧
        e.eid ∉ eids (stksess_new t key key_len eid alloc_ok now).1.keys ∧
        e.eid ∉ eids (stksess_new t key key_len eid alloc_ok now).1.exps ∧
        (stksess_new t key key_len eid alloc_ok now).1.current =
          (if t.current = t.size then
            (stktable_trash_oldest t (t.size >>> 8) now).1.current
           else t.current) + 1) ∧
    (∀ t, (stksess_free t).current = t.current - 1) ∧
    (∀ t, 1 ≤ t.current → (stksess_free t).current + 1 = t.current) := by
  refine ⟨?_, fun t => rfl, ?_⟩
  · intro t key key_len eid alloc_ok now hn hfk hfe e he
    have hv := lookup_ge_valid t.exps (sub32 now TIMER_LOOK_BACK)
    have hm := told_loop_main (2 * t.exps.length + 2) t
      (eb32_lookup_ge t.exps (sub32 now TIMER_LOOK_BACK)) 0 (t.size >>> 8) now hn hv
    have hcfg := told_loop_config (2 * t.exps.length + 2) t
      (eb32_lookup_ge t.exps (sub32 now TIMER_LOOK_BACK)) 0 (t.size >>> 8) now
    simp only [stksess_new, stktable_trash_oldest] at he ⊢
    by_cases hfull : t.current = t.size
    · rw [if_pos hfull] at he ⊢
      by_cases hnp : t.nopurge = true
      · rw [if_pos hnp] at he
        simp at he
      · rw [if_neg hnp] at he ⊢
        by_cases hr : (told_loop (2 * t.exps.length + 2) t
            (eb32_lookup_ge t.exps (sub32 now TIMER_LOOK_BACK)) 0 (t.size >>> 8) now).2 = 0
        · rw [if_pos hr] at he
          simp at he
        · rw [if_neg hr] at he ⊢
          by_cases ha : alloc_ok = true
          · rw [if_pos ha] at he ⊢
            have he' : e = stksess_init
                (told_loop (2 * t.exps.length + 2) t
                  (eb32_lookup_ge t.exps (sub32 now TIMER_LOOK_BACK)) 0 (t.size >>> 8) now).1
                eid key key_len := by
              simpa using he.symm
            subst he'
            refine ⟨rfl, rfl, ?_, ?_, ?_, ?_⟩
            · show stksess_key _ key key_len = stksess_key t key key_len
              unfold stksess_key
              rw [hcfg.1, hcfg.2.1]
            · show eid ∉ eids (told_loop (2 * t.exps.length + 2) t
                (eb32_lookup_ge t.exps (sub32 now TIMER_LOOK_BACK)) 0 (t.size >>> 8) now).1.keys
              intro hc
              exact hfk (hm.2.1 eid hc)
            · show eid ∉ eids (told_loop (2 * t.exps.length + 2) t
                (eb32_lookup_ge t.exps (sub32 now TIMER_LOOK_BACK)) 0 (t.size >>> 8) now).1.exps
              intro hc
              exact hfe (hm.1 eid hc)
            · rw [if_pos hfull]
          · rw [if_neg ha] at he
            simp at he
    · rw [if_neg hfull] at he ⊢
      by_cases ha : alloc_ok = true
      · rw [if_pos ha] at he ⊢
        have he' : e = stksess_init t eid key key_len := by simpa using he.symm
        subst he'
        refine ⟨rfl, rfl, rfl, hfk, hfe, ?_⟩
        rw [if_neg hfull]
      · rw [if_neg ha] at he
        simp at he
  · intro t h
    simp only [stksess_free]
    omega

/-- Witness for C10 on a fresh table and on a table holding three
sessions. -/
theorem stksess_new_init_spec_witness :
    (∀ e, (stksess_new (bootIp 10 5) [1,2,3,4] 4 1 true 100).2 = some e →
      e.sid = 0 ∧ e.eid = 1 ∧ e.skey = stksess_key (bootIp 10 5) [1,2,3,4] 4 ∧
      e.eid ∉ eids (stksess_new (bootIp 10 5) [1,2,3,4] 4 1 true 100).1.keys ∧
      e.eid ∉ eids (stksess_new (bootIp 10 5) [1,2,3,4] 4 1 true 100).1.exps ∧
      (stksess_new (bootIp 10 5) [1,2,3,4] 4 1 true 100).1.current =
        (if (bootIp 10 5).current = (bootIp 10 5).size then
          (stktable_trash_oldest (bootIp 10 5) ((bootIp 10 5).size >>> 8) 100).1.current
         else (bootIp 10 5).current) + 1) ∧
    1 ≤ ({ bootIp 10 5 with current := 3 } : Table).current →
      (stksess_free { bootIp 10 5 with current := 3 }).current + 1 =
        ({ bootIp 10 5 with current := 3 } : Table).current :=
  fun _ => stksess_new_init_spec.2.2 { bootIp 10 5 with current := 3 } (by decide)

/-! ### C5 — handling of nodes whose stamped key differs from the live expire -/

/-- C5 is refuted for the sweep: a visited node whose stamped `index_key`
(50) differs from its live `expire_at` (55) is evicted — removed from BOTH
indexes with occupancy decremented — when the live deadline has also
already elapsed (now = 60), instead of being re-stamped. -/
theorem sweep_stale_node_evicted_counterexample :
    stktable_trash_expired
      (Table.mk StkTType.ip 4 10 3 false 1000
        [StkSess.mk 1 [9,9,9,9] 5 55 50] [StkSess.mk 1 [9,9,9,9] 5 55 50] 50) 60 =
      (Table.mk StkTType.ip 4 10 2 false 1000 [] [] 0, 0) ∧
    (StkSess.mk 1 [9,9,9,9] 5 55 50).expire ≠ (StkSess.mk 1 [9,9,9,9] 5 55 50).ekey :=
  ⟨by decide, by decide⟩

/-- C5 (amended): in the eviction scan every visited node whose stamped key
differs from its live `expire` is handled without eviction — dropped from
the expiration index alone when `expire` is the never sentinel, otherwise
re-inserted at `expire` with the cursor moved to the smaller of the natural
successor and the re-inserted node — leaving the key index, the occupancy
and the batch count untouched.  In the sweep the same handling applies only
when the live `expire` has NOT yet elapsed (a visited node whose live
deadline has also elapsed is evicted, as the counterexample shows). -/
theorem scan_stale_node_spec :
    (∀ fuel t ts b tb now, b < tb → ts.expire ≠ ts.ekey →
      ∃ t2 c2, told_loop (fuel+1) t (some ts) b tb now = told_loop fuel t2 c2 b tb now ∧
        t2.keys = t.keys ∧ t2.current = t.current ∧
        (tick_isset ts.expire = false →
          t2 = { t with exps := t.exps.filter (fun x => x.eid != ts.eid) } ∧
          c2 = ebNext t.exps ts.eid) ∧
        (tick_isset ts.expire = true →
          t2 = { t with exps := eb32_insert (t.exps.filter (fun x => x.eid != ts.eid)) ({ ts with ekey := ts.expire }) } ∧
          c2 = (match ebNext t.exps ts.eid with
            | none => some ({ ts with ekey := ts.expire })
            | some n => if n.ekey > ts.expire then some ({ ts with ekey := ts.expire })
                else some n))) ∧
    (∀ fuel t ts now, tick_is_lt now ts.ekey = false →
      tick_is_expired ts.expire now = false → ts.expire ≠ ts.ekey →
      ∃ t2 c2, texp_loop (fuel+1) t (some ts) now = texp_loop fuel t2 c2 now ∧
        t2.keys = t.keys ∧ t2.current = t.current ∧
        (tick_isset ts.expire = false →
          t2 = { t with exps := t.exps.filter (fun x => x.eid != ts.eid) } ∧
          c2 = ebNext t.exps ts.eid) ∧
        (tick_isset ts.expire = true →
          t2 = { t with exps := eb32_insert (t.exps.filter (fun x => x.eid != ts.eid)) ({ ts with ekey := ts.expire }) } ∧
          c2 = (match ebNext t.exps ts.eid with
            | none => some ({ ts with ekey := ts.expire })
            | some n => if n.ekey > ts.expire then some ({ ts with ekey := ts.expire })
                else some n))) := by
  constructor
  · intro fuel t ts b tb now hb hne
    have hbne : (ts.expire != ts.ekey) = true := by simpa using hne
    by_cases hset : tick_isset ts.expire = false
    · refine ⟨{ t with exps := t.exps.filter (fun x => x.eid != ts.eid) },
        ebNext t.exps ts.eid, ?_, rfl, rfl, fun _ => ⟨rfl, rfl⟩, ?_⟩
      · simp [told_loop, hb, hbne, hset]
      · intro h'
        rw [hset] at h'
        cases h'
    · have hset' : tick_isset ts.expire = true := by
        cases hx : tick_isset ts.expire with
        | false => exact absurd hx hset
        | true => rfl
      refine ⟨{ t with exps := eb32_insert (t.exps.filter (fun x => x.eid != ts.eid)) ({ ts with ekey := ts.expire }) },
        (match ebNext t.exps ts.eid with
          | none => some ({ ts with ekey := ts.expire })
          | some n => if n.ekey > ts.expire then some ({ ts with ekey := ts.expire })
              else some n), ?_, rfl, rfl, ?_, fun _ => ⟨rfl, rfl⟩⟩
      · simp [told_loop, hb, hbne, hset']
      · intro h'
        rw [hset'] at h'
        cases h'
  · intro fuel t ts now hlt hnexp hne
    by_cases hset : tick_isset ts.expire = false
    · refine ⟨{ t with exps := t.exps.filter (fun x => x.eid != ts.eid) },
        ebNext t.exps ts.eid, ?_, rfl, rfl, fun _ => ⟨rfl, rfl⟩, ?_⟩
      · simp [texp_loop, hlt, hnexp, hset]
      · intro h'
        rw [hset] at h'
        cases h'
    · have hset' : tick_isset ts.expire = true := by
        cases hx : tick_isset ts.expire with
        | false => exact absurd hx hset
        | true => rfl
      refine ⟨{ t with exps := eb32_insert (t.exps.filter (fun x => x.eid != ts.eid)) ({ ts with ekey := ts.expire }) },
        (match ebNext t.exps ts.eid with
          | none => some ({ ts with ekey := ts.expire })
          | some n => if n.ekey > ts.expire then some ({ ts with ekey := ts.expire })
              else some n), ?_, rfl, rfl, ?_, fun _ => ⟨rfl, rfl⟩⟩
      · simp [texp_loop, hlt, hnexp, hset']
      · intro h'
        rw [hset'] at h'
        cases h'

/-- Witness for the amended C5: a node stamped at 100 whose live expire is
900 is re-stamped (not evicted) by both scans at now = 200 — key index and
occupancy untouched, cursor at the re-inserted node. -/
theorem scan_stale_node_spec_witness :
    told_loop 3
      { bootIp 10 1000 with
        current := 1,
        keys := [StkSess.mk 1 [1,1,1,1] 1 900 100],
        exps := [StkSess.mk 1 [1,1,1,1] 1 900 100] }
      (some (StkSess.mk 1 [1,1,1,1] 1 900 100)) 0 1 200 =
      told_loop 2
        { bootIp 10 1000 with
          current := 1,
          keys := [StkSess.mk 1 [1,1,1,1] 1 900 100],
          exps := [StkSess.mk 1 [1,1,1,1] 1 900 900] }
        (some (StkSess.mk 1 [1,1,1,1] 1 900 900)) 0 1 200 ∧
    texp_loop 3
      { bootIp 10 1000 with
        current := 1,
        keys := [StkSess.mk 1 [1,1,1,1] 1 900 100],
        exps := [StkSess.mk 1 [1,1,1,1] 1 900 100] }
      (some (StkSess.mk 1 [1,1,1,1] 1 900 100)) 200 =
      texp_loop 2
        { bootIp 10 1000 with
          current := 1,
          keys := [StkSess.mk 1 [1,1,1,1] 1 900 100],
          exps := [StkSess.mk 1 [1,1,1,1] 1 900 900] }
        (some (StkSess.mk 1 [1,1,1,1] 1 900 900)) 200 := by
  constructor
  · obtain ⟨t2, c2, h1, _, _, _, h5⟩ := scan_stale_node_spec.1 2
      { bootIp 10 1000 with
        current := 1,
        keys := [StkSess.mk 1 [1,1,1,1] 1 900 100],
        exps := [StkSess.mk 1 [1,1,1,1] 1 900 100] }
      (StkSess.mk 1 [1,1,1,1] 1 900 100) 0 1 200 (by decide) (by decide)
    obtain ⟨ht2, hc2⟩ := h5 (by decide)
    rw [ht2, hc2] at h1
    exact h1.trans (by decide)
  · obtain ⟨t2, c2, h1, _, _, _, h5⟩ := scan_stale_node_spec.2 2
      { bootIp 10 1000 with
        current := 1,
        keys := [StkSess.mk 1 [1,1,1,1] 1 900 100],
        exps := [StkSess.mk 1 [1,1,1,1] 1 900 100] }
      (StkSess.mk 1 [1,1,1,1] 1 900 100) 200 (by decide) (by decide) (by decide)
    obtain ⟨ht2, hc2⟩ := h5 (by decide)
    rw [ht2, hc2] at h1
    exact h1.trans (by decide)

/-! ### C6 — scan anchoring, wrap-around restart, and boundary straddling -/

theorem told_loop_empty (fuel : Nat) (t : Table) (b tb now : Nat) (h : t.exps = []) :
    told_loop fuel t none b tb now = (t, b) := by
  cases fuel with
  | zero => rfl
  | succ fuel => simp [told_loop, eb32_first, h]

theorem texp_loop_empty (fuel : Nat) (t : Table) (now : Nat) (h : t.exps = []) :
    texp_loop fuel t none now = ({ t with exp_next := TICK_ETERNITY }, TICK_ETERNITY) := by
  cases fuel with
  | zero => rfl
  | succ fuel => simp [texp_loop, eb32_first, h]

theorem texp_loop_future_stop (fuel : Nat) (t : Table) (n : StkSess) (now : Nat)
    (h : tick_is_lt now n.ekey = true) :
    texp_loop (fuel+1) t (some n) now = ({ t with exp_next := n.ekey }, n.ekey) := by
  simp [texp_loop, h]

/-- C6: both scans start at the first expiration-index node with key
≥ `now − TIMER_LOOK_BACK` (shown by the sweep returning exactly that
node's key when it is still in the future), stop immediately when the
index is empty, and, when the scan runs off the end, restart from the very
first node: with a wrapping 32-bit clock, four expired entries straddling
the wrap boundary (keys 2^32−10, 2^32−3, 2, 4 at now = 5) are all visited
and all reclaimed by the sweep — and all evicted by the eviction scan —
none skipped. -/
theorem scan_anchor_spec :
    (∀ t to_batch now, t.exps = [] → stktable_trash_oldest t to_batch now = (t, 0)) ∧
    (∀ t now, t.exps = [] →
      stktable_trash_expired t now = ({ t with exp_next := TICK_ETERNITY }, TICK_ETERNITY)) ∧
    (∀ t now n, eb32_lookup_ge t.exps (sub32 now TIMER_LOOK_BACK) = some n →
      tick_is_lt now n.ekey = true →
      stktable_trash_expired t now = ({ t with exp_next := n.ekey }, n.ekey)) ∧
    stktable_trash_expired
      (Table.mk StkTType.ip 4 10 4 false 1000
        [StkSess.mk 1 [1] 1 4294967286 4294967286, StkSess.mk 2 [2] 1 4294967293 4294967293,
         StkSess.mk 3 [3] 1 2 2, StkSess.mk 4 [4] 1 4 4]
        [StkSess.mk 3 [3] 1 2 2, StkSess.mk 4 [4] 1 4 4,
         StkSess.mk 1 [1] 1 4294967286 4294967286, StkSess.mk 2 [2] 1 4294967293 4294967293]
        2) 5 =
      (Table.mk StkTType.ip 4 10 0 false 1000 [] [] 0, 0) ∧
    stktable_trash_oldest
      (Table.mk StkTType.ip 4 10 4 false 1000
        [StkSess.mk 1 [1] 1 4294967286 4294967286, StkSess.mk 2 [2] 1 4294967293 4294967293,
         StkSess.mk 3 [3] 1 2 2, StkSess.mk 4 [4] 1 4 4]
        [StkSess.mk 3 [3] 1 2 2, StkSess.mk 4 [4] 1 4 4,
         StkSess.mk 1 [1] 1 4294967286 4294967286, StkSess.mk 2 [2] 1 4294967293 4294967293]
        2) 4 5 =
      (Table.mk StkTType.ip 4 10 0 false 1000 [] [] 2, 4) := by
  refine ⟨?_, ?_, ?_, by decide, by decide⟩
  · intro t tb now h
    have hl : eb32_lookup_ge t.exps (sub32 now TIMER_LOOK_BACK) = none := by
      rw [h]; rfl
    simp only [stktable_trash_oldest, hl]
    exact told_loop_empty _ _ _ _ _ h
  · intro t now h
    have hl : eb32_lookup_ge t.exps (sub32 now TIMER_LOOK_BACK) = none := by
      rw [h]; rfl
    simp only [stktable_trash_expired, hl]
    exact texp_loop_empty _ _ _ h
  · intro t now n hfind hlt
    simp only [stktable_trash_expired, hfind]
    rw [show 2 * t.exps.length + 2 = (2 * t.exps.length + 1) + 1 from rfl]
    exact texp_loop_future_stop _ _ _ _ hlt

/-- Witness for C6 on an empty table and on a table whose anchored first
node is still in the future. -/
theorem scan_anchor_spec_witness :
    stktable_trash_oldest (bootIp 10 1000) 3 77 = (bootIp 10 1000, 0) ∧
    stktable_trash_expired (bootIp 10 1000) 77 =
      ({ bootIp 10 1000 with exp_next := TICK_ETERNITY }, TICK_ETERNITY) ∧
    stktable_trash_expired
      { bootIp 10 1000 with
        current := 1,
        keys := [StkSess.mk 1 [1] 1 2147484648 2147484648],
        exps := [StkSess.mk 1 [1] 1 2147484648 2147484648] } 2147483748 =
      ({ bootIp 10 1000 with
          current := 1,
          keys := [StkSess.mk 1 [1] 1 2147484648 2147484648],
          exps := [StkSess.mk 1 [1] 1 2147484648 2147484648],
          exp_next := (StkSess.mk 1 [1] 1 2147484648 2147484648).ekey },
       (StkSess.mk 1 [1] 1 2147484648 2147484648).ekey) :=
  ⟨scan_anchor_spec.1 (bootIp 10 1000) 3 77 rfl,
   scan_anchor_spec.2.1 (bootIp 10 1000) 77 rfl,
   scan_anchor_spec.2.2.1
     { bootIp 10 1000 with
       current := 1,
       keys := [StkSess.mk 1 [1] 1 2147484648 2147484648],
       exps := [StkSess.mk 1 [1] 1 2147484648 2147484648] } 2147483748
     (StkSess.mk 1 [1] 1 2147484648 2147484648)
     (by decide) (by decide)⟩

/-! ### Helpers for the sweep characterization (C7) -/

theorem mem_rmEids : ∀ (R keys : List StkSess) (x : StkSess),
    x ∈ rmEids R keys ↔ x ∈ keys ∧ ∀ r ∈ R, x.eid ≠ r.eid := by
  intro R
  induction R with
  | nil => intro keys x; simp [rmEids]
  | cons r rs ih =>
    intro keys x
    rw [rmEids, ih]
    simp only [List.mem_filter, bne_iff_ne, ne_eq, List.mem_cons, decide_eq_true_eq]
    constructor
    · rintro ⟨⟨hk, hr⟩, hrs⟩
      refine ⟨hk, ?_⟩
      intro y hy
      rcases hy with hy | hy
      · rw [hy]; simpa using hr
      · exact hrs y hy
    · rintro ⟨hk, hall⟩
      refine ⟨⟨hk, by simpa using hall r (Or.inl rfl)⟩, fun y hy => hall y (Or.inr hy)⟩

theorem filter_ne_of_not_mem : ∀ (l : List StkSess) (k : Nat), k ∉ eids l →
    l.filter (fun x => x.eid != k) = l := by
  intro l
  induction l with
  | nil => intro k _; rfl
  | cons a as ih =>
    intro k h
    rw [eids, List.map_cons, List.mem_cons, not_or] at h
    rw [List.filter_cons, if_pos (by simpa using fun hc => h.1 hc.symm)]
    rw [ih k (by simpa [eids] using h.2)]

theorem ebNext_append_head : ∀ (Pfx : List StkSess) (s : StkSess) (R : List StkSess),
    s.eid ∉ eids Pfx → ebNext (Pfx ++ s :: R) s.eid = R.head? := by
  intro Pfx
  induction Pfx with
  | nil => intro s R _; simp [ebNext]
  | cons p ps ih =>
    intro s R h
    rw [eids, List.map_cons, List.mem_cons, not_or] at h
    rw [List.cons_append, ebNext]
    rw [if_neg (by simpa using fun hc => h.1 hc.symm)]
    exact ih s R (by simpa [eids] using h.2)

theorem find?_eq_head_dropWhile (l : List StkSess) (p : StkSess → Bool) :
    l.find? p = (l.dropWhile (fun e => !(p e))).head? := by
  induction l with
  | nil => rfl
  | cons x xs ih =>
    cases hp : p x with
    | true => simp [List.find?_cons, List.dropWhile_cons, hp]
    | false => simpa [List.find?_cons, List.dropWhile_cons, hp] using ih

theorem dropWhile_append_of_all {p : StkSess → Bool} : ∀ (A B : List StkSess),
    (∀ a ∈ A, p a = true) → (A ++ B).dropWhile p = B.dropWhile p := by
  intro A
  induction A with
  | nil => intro B _; rfl
  | cons a as ih =>
    intro B h
    rw [List.cons_append, List.dropWhile_cons, if_pos (h a (List.mem_cons_self _ _))]
    exact ih B (fun x hx => h x (List.mem_cons_of_mem _ hx))

theorem dropWhile_all_ge (A : Nat) : ∀ (l : List StkSess),
    List.Pairwise (fun a b => a.ekey ≤ b.ekey) l →
    ∀ e ∈ l.dropWhile (fun e => !(decide (A ≤ e.ekey))), A ≤ e.ekey := by
  intro l
  induction l with
  | nil => intro _ e he; simp at he
  | cons x xs ih =>
    intro hp e he
    rw [List.pairwise_cons] at hp
    rw [List.dropWhile_cons] at he
    split at he
    · exact ih hp.2 e he
    · rename_i hx
      have hxA : A ≤ x.ekey := by
        by_contra hc
        exact hx (by simpa using hc)
      rcases List.mem_cons.1 he with rfl | he'
      · exact hxA
      · exact le_trans hxA (hp.1 e he')

theorem future_D {now k : Nat} (hk : k < W) (hn : now < W)
    (hh : sub32 k now ≠ 2147483648) :
    (tick_is_lt now k = true ↔ 2147483648 < sub32 k ((now + 2147483648) % W)) := by
  simp only [tick_is_lt, sub32, W, decide_eq_true_eq] at *
  omega

theorem future_not_expired {k now : Nat} (hk : k < W) (hn : now < W)
    (hh : sub32 k now ≠ 2147483648) (h : tick_is_lt now k = true) :
    tick_is_expired k now = false := by
  simp only [tick_is_lt, tick_is_expired, tick_isset, tick_is_le, sub32, W,
    decide_eq_true_eq, Bool.and_eq_false_iff, Bool.or_eq_false_iff, bne_eq_false_iff_eq,
    beq_eq_false_iff_ne, ne_eq, decide_eq_false_iff_not, not_le] at *
  omega

theorem future_up {now ka kb : Nat} (hka : ka < W) (hkb : kb < W) (hn : now < W)
    (hha : sub32 ka now ≠ 2147483648) (hhb : sub32 kb now ≠ 2147483648)
    (hD : sub32 ka ((now + 2147483648) % W) ≤ sub32 kb ((now + 2147483648) % W))
    (hf : tick_is_lt now ka = true) : tick_is_lt now kb = true := by
  rw [future_D hka hn hha] at hf
  rw [future_D hkb hn hhb]
  omega

theorem D_S_mono {A ka kb : Nat} (h1 : A ≤ ka) (h2 : ka ≤ kb) (hb : kb < W)
    (hA : A < W) : sub32 ka A ≤ sub32 kb A := by
  simp only [sub32, W] at *
  omega

theorem D_P_mono {A ka kb : Nat} (h1 : ka ≤ kb) (h2 : kb < A) (hA : A < W) :
    sub32 ka A ≤ sub32 kb A := by
  simp only [sub32, W] at *
  omega

theorem D_SP {A ka kb : Nat} (h1 : A ≤ ka) (hka : ka < W) (h2 : kb < A) :
    sub32 ka A ≤ sub32 kb A := by
  simp only [sub32, W] at *
  omega

/-- Draining lemma: a run of consecutively scanned sessions that are all
visited (keys not in the future) and all truly expired is evicted one by
one — removed from both indexes, occupancy decremented — after which the
scan continues at the following node. -/
theorem texp_drain : ∀ (S1 Pfx T : List StkSess) (t : Table) (fuel now : Nat),
    t.exps = Pfx ++ S1 ++ T →
    (eids t.exps).Nodup →
    (∀ e ∈ S1, tick_is_lt now e.ekey = false) →
    (∀ e ∈ S1, tick_is_expired e.expire now = true) →
    texp_loop (S1.length + fuel) t ((S1 ++ T).head?) now =
      texp_loop fuel
        { t with
          exps := Pfx ++ T,
          keys := rmEids S1 t.keys,
          current := t.current - S1.length } (T.head?) now := by
  intro S1
  induction S1 with
  | nil =>
    intro Pfx T t fuel now hexps _ _ _
    have h2 : Pfx ++ T = t.exps := by simpa using hexps.symm
    simp only [List.length_nil, Nat.zero_add, List.nil_append, rmEids, Nat.sub_zero, h2]
  | cons s S1' ih =>
    intro Pfx T t fuel now hexps hn hlt hexp
    have hexps' : t.exps = Pfx ++ s :: (S1' ++ T) := by simpa using hexps
    have hn' := hn
    rw [hexps'] at hn'
    have hnl : (eids Pfx ++ s.eid :: eids (S1' ++ T)).Nodup := by
      simpa [eids, List.map_append, List.map_cons] using hn'
    have hsp : s.eid ∉ eids Pfx := by
      intro hc
      exact (List.nodup_append.1 hnl).2.2 hc (List.mem_cons_self _ _)
    have hsr : s.eid ∉ eids (S1' ++ T) :=
      (List.nodup_cons.1 (List.nodup_append.1 hnl).2.1).1
    have h1 := hlt s (List.mem_cons_self _ _)
    have h2 := hexp s (List.mem_cons_self _ _)
    have hnext : ebNext t.exps s.eid = (S1' ++ T).head? := by
      rw [hexps']
      exact ebNext_append_head Pfx s (S1' ++ T) hsp
    have hf : t.exps.filter (fun x => x.eid != s.eid) = Pfx ++ (S1' ++ T) := by
      rw [hexps', List.filter_append, List.filter_cons]
      rw [if_neg (by simp)]
      rw [filter_ne_of_not_mem Pfx s.eid hsp,
        filter_ne_of_not_mem (S1' ++ T) s.eid hsr]
    have hlen : (s :: S1').length + fuel = (S1'.length + fuel) + 1 := by
      simp only [List.length_cons]
      omega
    have step : texp_loop ((s :: S1').length + fuel) t (((s :: S1') ++ T).head?) now =
        texp_loop (S1'.length + fuel)
          { (stksess_free t) with
            exps := Pfx ++ (S1' ++ T),
            keys := t.keys.filter (fun x => x.eid != s.eid) }
          ((S1' ++ T).head?) now := by
      rw [hlen]
      have hcur : ((s :: S1') ++ T).head? = some s := rfl
      rw [hcur]
      simp only [texp_loop, h1, h2, hnext, hf, Bool.false_eq_true, if_false,
        Bool.true_eq_false]
    rw [step]
    have ht2 : ({ (stksess_free t) with
        exps := Pfx ++ (S1' ++ T),
        keys := t.keys.filter (fun x => x.eid != s.eid) } : Table).exps =
        Pfx ++ S1' ++ T := by
      simp [List.append_assoc]
    have hn2 : (eids ({ (stksess_free t) with
        exps := Pfx ++ (S1' ++ T),
        keys := t.keys.filter (fun x => x.eid != s.eid) } : Table).exps).Nodup := by
      show (eids (Pfx ++ (S1' ++ T))).Nodup
      have hsub : List.Sublist (Pfx ++ (S1' ++ T)) (Pfx ++ s :: (S1' ++ T)) :=
        List.Sublist.append_left (List.sublist_cons_self _ _) Pfx
      have := hsub.map (fun e => e.eid)
      refine List.Nodup.sublist ?_ hn'
      simpa [eids, List.map_append, List.map_cons] using this
    rw [ih Pfx T _ fuel now ht2 hn2
      (fun e he => hlt e (List.mem_cons_of_mem _ he))
      (fun e he => hexp e (List.mem_cons_of_mem _ he))]
    simp only [List.length_cons]
    have hc : t.current - (S1'.length + 1) = t.current - 1 - S1'.length := by omega
    rw [hc]
    rfl

theorem dropWhile_head_false {p : StkSess → Bool} : ∀ (l : List StkSess) (x : StkSess)
    (xs : List StkSess), l.dropWhile p = x :: xs → p x = false := by
  intro l
  induction l with
  | nil => intro x xs h; cases h
  | cons a as ih =>
    intro x xs h
    rw [List.dropWhile_cons] at h
    split at h
    · exact ih x xs h
    · rename_i ha
      cases h
      simpa using ha

theorem takeWhile_append_of_all {p : StkSess → Bool} : ∀ (A B : List StkSess),
    (∀ a ∈ A, p a = true) → (A ++ B).takeWhile p = A ++ B.takeWhile p := by
  intro A
  induction A with
  | nil => intro B _; rfl
  | cons a as ih =>
    intro B h
    rw [List.cons_append, List.takeWhile_cons, if_pos (h a (List.mem_cons_self _ _))]
    rw [ih B (fun x hx => h x (List.mem_cons_of_mem _ hx))]
    rfl

theorem rmEids_append : ∀ (A B keys : List StkSess),
    rmEids (A ++ B) keys = rmEids B (rmEids A keys) := by
  intro A
  induction A with
  | nil => intro B keys; rfl
  | cons a as ih =>
    intro B keys
    rw [List.cons_append, rmEids, rmEids, ih]

theorem texp_loop_wrap (fuel : Nat) (t : Table) (now : Nat) (h : StkSess)
    (hh : t.exps.head? = some h) :
    texp_loop (fuel+1) t none now = texp_loop (fuel+1) t (some h) now := by
  simp [texp_loop, eb32_first, hh]

theorem sweep_run_stop (t : Table) (now : Nat) (P S1 : List StkSess) (f : StkSess)
    (rest : List StkSess)
    (hexps : t.exps = P ++ S1 ++ (f :: rest))
    (hfind : eb32_lookup_ge t.exps (sub32 now TIMER_LOOK_BACK) = (S1 ++ (f :: rest)).head?)
    (hn : (eids t.exps).Nodup)
    (hS1lt : ∀ e ∈ S1, tick_is_lt now e.ekey = false)
    (hS1exp : ∀ e ∈ S1, tick_is_expired e.expire now = true)
    (hf : tick_is_lt now f.ekey = true) :
    stktable_trash_expired t now =
      ({ t with
         exps := P ++ (f :: rest),
         keys := rmEids S1 t.keys,
         current := t.current - S1.length,
         exp_next := f.ekey }, f.ekey) := by
  simp only [stktable_trash_expired]
  rw [hfind]
  have hl1 : S1.length ≤ t.exps.length := by
    rw [hexps]
    simp [List.length_append]
    omega
  rw [show 2 * t.exps.length + 2 = S1.length + (2 * t.exps.length + 2 - S1.length) from by omega]
  rw [texp_drain S1 P (f :: rest) t _ now hexps hn hS1lt hS1exp]
  rw [show 2 * t.exps.length + 2 - S1.length = (2 * t.exps.length + 1 - S1.length) + 1 from by omega]
  rw [show ((f :: rest).head?) = some f from rfl]
  rw [texp_loop_future_stop _ _ _ _ hf]

theorem sweep_run_wrap_stop (t : Table) (now : Nat) (S P1 : List StkSess) (g : StkSess)
    (rest2 : List StkSess)
    (hexps : t.exps = (P1 ++ (g :: rest2)) ++ S)
    (hfind : eb32_lookup_ge t.exps (sub32 now TIMER_LOOK_BACK) = S.head?)
    (hn : (eids t.exps).Nodup)
    (hSlt : ∀ e ∈ S, tick_is_lt now e.ekey = false)
    (hSexp : ∀ e ∈ S, tick_is_expired e.expire now = true)
    (hP1lt : ∀ e ∈ P1, tick_is_lt now e.ekey = false)
    (hP1exp : ∀ e ∈ P1, tick_is_expired e.expire now = true)
    (hg : tick_is_lt now g.ekey = true) :
    stktable_trash_expired t now =
      ({ t with
         exps := g :: rest2,
         keys := rmEids P1 (rmEids S t.keys),
         current := t.current - S.length - P1.length,
         exp_next := g.ekey }, g.ekey) := by
  simp only [stktable_trash_expired]
  rw [hfind]
  have hl1 : S.length ≤ t.exps.length := by
    rw [hexps]
    simp [List.length_append]
    omega
  have hl2 : P1.length ≤ t.exps.length := by
    rw [hexps]
    simp [List.length_append]
  have hexps' : t.exps = (P1 ++ (g :: rest2)) ++ S ++ [] := by
    rw [List.append_nil]; exact hexps
  have hcur : S.head? = (S ++ ([] : List StkSess)).head? := by rw [List.append_nil]
  rw [hcur]
  rw [show 2 * t.exps.length + 2 = S.length + (2 * t.exps.length + 2 - S.length) from by omega]
  rw [texp_drain S (P1 ++ (g :: rest2)) [] t _ now hexps' hn hSlt hSexp]
  -- the wrapped state
  rw [show 2 * t.exps.length + 2 - S.length = (2 * t.exps.length + 1 - S.length) + 1 from by omega]
  obtain ⟨h0, hh0⟩ : ∃ h0, (P1 ++ (g :: rest2)).head? = some h0 := by
    cases P1 <;> simp
  have hh0' : (({ t with
      exps := (P1 ++ (g :: rest2)) ++ [],
      keys := rmEids S t.keys,
      current := t.current - S.length } : Table)).exps.head? = some h0 := by
    show ((P1 ++ (g :: rest2)) ++ []).head? = some h0
    rw [List.append_nil]
    exact hh0
  rw [show (([] : List StkSess).head?) = (none : Option StkSess) from rfl]
  rw [texp_loop_wrap _ _ _ h0 hh0']
  rw [← hh0]
  -- now drain P1 with Pfx := [], T := g :: rest2
  have hexps2 : (({ t with
      exps := (P1 ++ (g :: rest2)) ++ [],
      keys := rmEids S t.keys,
      current := t.current - S.length } : Table)).exps = [] ++ P1 ++ (g :: rest2) := by
    show (P1 ++ (g :: rest2)) ++ [] = [] ++ P1 ++ (g :: rest2)
    simp
  have hn2 : (eids (({ t with
      exps := (P1 ++ (g :: rest2)) ++ [],
      keys := rmEids S t.keys,
      current := t.current - S.length } : Table)).exps).Nodup := by
    show (eids ((P1 ++ (g :: rest2)) ++ [])).Nodup
    rw [List.append_nil]
    have hsub : List.Sublist (P1 ++ (g :: rest2)) t.exps := by
      rw [hexps]
      exact List.sublist_append_left _ _
    exact List.Nodup.sublist (by simpa [eids] using hsub.map (fun e => e.eid)) hn
  rw [show (2 * t.exps.length + 1 - S.length) + 1 =
    P1.length + ((2 * t.exps.length + 1 - S.length) + 1 - P1.length) from by omega]
  rw [texp_drain P1 [] (g :: rest2) _ _ now hexps2 hn2 hP1lt hP1exp]
  rw [show (2 * t.exps.length + 1 - S.length) + 1 - P1.length =
    ((2 * t.exps.length + 1 - S.length) - P1.length) + 1 from by omega]
  rw [show ((g :: rest2).head?) = some g from rfl]
  rw [texp_loop_future_stop _ _ _ _ hg]
  rfl

theorem sweep_run_drain_all (t : Table) (now : Nat) (S P : List StkSess)
    (hexps : t.exps = P ++ S)
    (hfind : eb32_lookup_ge t.exps (sub32 now TIMER_LOOK_BACK) = S.head?)
    (hn : (eids t.exps).Nodup)
    (hSlt : ∀ e ∈ S, tick_is_lt now e.ekey = false)
    (hSexp : ∀ e ∈ S, tick_is_expired e.expire now = true)
    (hPlt : ∀ e ∈ P, tick_is_lt now e.ekey = false)
    (hPexp : ∀ e ∈ P, tick_is_expired e.expire now = true) :
    stktable_trash_expired t now =
      ({ t with
         exps := [],
         keys := rmEids P (rmEids S t.keys),
         current := t.current - S.length - P.length,
         exp_next := TICK_ETERNITY }, TICK_ETERNITY) := by
  simp only [stktable_trash_expired]
  rw [hfind]
  have hl1 : S.length ≤ t.exps.length := by
    rw [hexps]
    simp [List.length_append]
  have hl2 : P.length ≤ t.exps.length := by
    rw [hexps]
    simp [List.length_append]
  have hexps' : t.exps = P ++ S ++ [] := by
    rw [List.append_nil]; exact hexps
  have hcur : S.head? = (S ++ ([] : List StkSess)).head? := by rw [List.append_nil]
  rw [hcur]
  rw [show 2 * t.exps.length + 2 = S.length + (2 * t.exps.length + 2 - S.length) from by omega]
  rw [texp_drain S P [] t _ now hexps' hn hSlt hSexp]
  rw [show (([] : List StkSess).head?) = (none : Option StkSess) from rfl]
  cases P with
  | nil =>
    rw [show 2 * t.exps.length + 2 - S.length = (2 * t.exps.length + 1 - S.length) + 1 from by omega]
    simp [texp_loop, eb32_first, rmEids]
  | cons p ps =>
    rw [show 2 * t.exps.length + 2 - S.length = (2 * t.exps.length + 1 - S.length) + 1 from by omega]
    have hh0' : (({ t with
        exps := (p :: ps) ++ [],
        keys := rmEids S t.keys,
        current := t.current - S.length } : Table)).exps.head? = some p := by
      show ((p :: ps) ++ []).head? = some p
      rfl
    rw [texp_loop_wrap _ _ _ p hh0']
    have hexps2 : (({ t with
        exps := (p :: ps) ++ [],
        keys := rmEids S t.keys,
        current := t.current - S.length } : Table)).exps = [] ++ (p :: ps) ++ [] := by
      show (p :: ps) ++ [] = [] ++ (p :: ps) ++ []
      simp
    have hn2 : (eids (({ t with
        exps := (p :: ps) ++ [],
        keys := rmEids S t.keys,
        current := t.current - S.length } : Table)).exps).Nodup := by
      show (eids ((p :: ps) ++ [])).Nodup
      rw [List.append_nil]
      have hsub : List.Sublist (p :: ps) t.exps := by
        rw [hexps]
        exact List.sublist_append_left _ _
      exact List.Nodup.sublist (by simpa [eids] using hsub.map (fun e => e.eid)) hn
    have hcur2 : (some p) = ((p :: ps) ++ ([] : List StkSess)).head? := by
      rfl
    rw [hcur2]
    rw [show (2 * t.exps.length + 1 - S.length) + 1 =
      (p :: ps).length + ((2 * t.exps.length + 1 - S.length) + 1 - (p :: ps).length) from by omega]
    rw [texp_drain (p :: ps) [] [] _ _ now hexps2 hn2 hPlt hPexp]
    rw [show (2 * t.exps.length + 1 - S.length) + 1 - (p :: ps).length =
      ((2 * t.exps.length + 1 - S.length) - (p :: ps).length) + 1 from by omega]
    simp [texp_loop, eb32_first]

theorem rmEids_middle : ∀ (R X Y : List StkSess), (eids (X ++ R ++ Y)).Nodup →
    rmEids R (X ++ R ++ Y) = X ++ Y := by
  intro R
  induction R with
  | nil => intro X Y _; simp [rmEids]
  | cons r rs ih =>
    intro X Y hn
    show rmEids rs ((X ++ (r :: rs) ++ Y).filter (fun x => x.eid != r.eid)) = X ++ Y
    have hn' : (eids X ++ r.eid :: (eids rs ++ eids Y)).Nodup := by
      simpa [eids, List.map_append, List.map_cons, List.append_assoc] using hn
    have h3 := (List.nodup_cons.mp (List.nodup_middle.mp hn')).1
    rw [List.mem_append, List.mem_append] at h3
    push_neg at h3
    have hrX : r.eid ∉ eids X := h3.1
    have hrs : r.eid ∉ eids rs := h3.2.1
    have hrY : r.eid ∉ eids Y := h3.2.2
    have hfilt : (X ++ (r :: rs) ++ Y).filter (fun x => x.eid != r.eid) =
        X ++ rs.filter (fun x => x.eid != r.eid) ++ Y := by
      rw [List.filter_append, List.filter_append, List.filter_cons]
      rw [if_neg (by simp)]
      rw [filter_ne_of_not_mem X r.eid hrX, filter_ne_of_not_mem Y r.eid hrY]
    rw [hfilt, filter_ne_of_not_mem rs r.eid hrs]
    apply ih
    have hsub : List.Sublist (X ++ rs ++ Y) (X ++ (r :: rs) ++ Y) := by
      apply List.Sublist.append _ (List.Sublist.refl Y)
      exact List.Sublist.append (List.Sublist.refl X) (List.sublist_cons_self r rs)
    simp only [eids] at hn ⊢
    exact List.Nodup.sublist (hsub.map (fun e => e.eid)) hn

theorem sweep_run_aux (t : Table) (now : Nat) (P S : List StkSess)
    (hsplit : t.exps = P ++ S)
    (hfind : eb32_lookup_ge t.exps (sub32 now TIMER_LOOK_BACK) = S.head?)
    (hn : (eids t.exps).Nodup)
    (hcoh : ∀ e ∈ t.exps, e.expire = e.ekey)
    (hnz : ∀ e ∈ t.exps, e.expire ≠ 0) :
    stktable_trash_expired t now =
      ({ t with
         exps := rmEids ((S ++ P).takeWhile (elapsedB now)) t.exps,
         keys := rmEids ((S ++ P).takeWhile (elapsedB now)) t.keys,
         current := t.current - ((S ++ P).takeWhile (elapsedB now)).length,
         exp_next := (match ((S ++ P).dropWhile (elapsedB now)).head? with
           | some f => f.ekey
           | none => TICK_ETERNITY) },
       (match ((S ++ P).dropWhile (elapsedB now)).head? with
         | some f => f.ekey
         | none => TICK_ETERNITY)) := by
  have hmemS : ∀ e ∈ S, e ∈ t.exps := by
    intro e he
    rw [hsplit]
    exact List.mem_append_right _ he
  have hmemP : ∀ e ∈ P, e ∈ t.exps := by
    intro e he
    rw [hsplit]
    exact List.mem_append_left _ he
  have hexp_of_el : ∀ e ∈ t.exps, elapsedB now e = true → tick_is_expired e.expire now = true := by
    intro e he hel
    rw [hcoh e he]
    apply tick_visited_expired
    · rw [← hcoh e he]
      exact hnz e he
    · simpa [elapsedB] using hel
  cases hS2 : S.dropWhile (elapsedB now) with
  | cons f rest =>
    have hSsplit : S = S.takeWhile (elapsedB now) ++ (f :: rest) := by
      rw [← hS2]
      exact (List.takeWhile_append_dropWhile _ _).symm
    have hS1el : ∀ e ∈ S.takeWhile (elapsedB now), elapsedB now e = true :=
      fun e he => List.mem_takeWhile_imp he
    have hS1mem : ∀ e ∈ S.takeWhile (elapsedB now), e ∈ t.exps :=
      fun e he => hmemS e (List.takeWhile_subset _ he)
    have hS1lt : ∀ e ∈ S.takeWhile (elapsedB now), tick_is_lt now e.ekey = false := by
      intro e he
      have := hS1el e he
      simpa [elapsedB] using this
    have hS1exp : ∀ e ∈ S.takeWhile (elapsedB now), tick_is_expired e.expire now = true :=
      fun e he => hexp_of_el e (hS1mem e he) (hS1el e he)
    have hf : tick_is_lt now f.ekey = true := by
      have := dropWhile_head_false S f rest hS2
      simpa [elapsedB] using this
    generalize hS1g : S.takeWhile (elapsedB now) = S1 at hSsplit hS1el hS1mem hS1lt hS1exp
    have hexps1 : t.exps = P ++ S1 ++ (f :: rest) := by
      rw [hsplit, hSsplit, List.append_assoc]
    have hfind1 : eb32_lookup_ge t.exps (sub32 now TIMER_LOOK_BACK) = (S1 ++ (f :: rest)).head? := by
      rw [hfind]
      exact congrArg List.head? hSsplit
    rw [sweep_run_stop t now P S1 f rest hexps1 hfind1 hn hS1lt hS1exp hf]
    have hE : (S ++ P).takeWhile (elapsedB now) = S1 := by
      rw [hSsplit, List.append_assoc]
      rw [takeWhile_append_of_all S1 _ hS1el]
      rw [List.cons_append, List.takeWhile_cons]
      rw [if_neg (by simp [elapsedB, hf])]
      rw [List.append_nil]
    have hF : (S ++ P).dropWhile (elapsedB now) = (f :: rest) ++ P := by
      rw [hSsplit, List.append_assoc]
      rw [dropWhile_append_of_all S1 _ hS1el]
      rw [List.cons_append, List.dropWhile_cons]
      rw [if_neg (by simp [elapsedB, hf])]
    rw [hE, hF]
    simp only [List.cons_append, List.head?_cons]
    have hn1 : (eids (P ++ S1 ++ (f :: rest))).Nodup := by
      rw [← hexps1]
      exact hn
    rw [hexps1, rmEids_middle S1 P (f :: rest) hn1]
  | nil =>
    have hSel : ∀ e ∈ S, elapsedB now e = true := List.dropWhile_eq_nil_iff.mp hS2
    have hSlt : ∀ e ∈ S, tick_is_lt now e.ekey = false := by
      intro e he
      have := hSel e he
      simpa [elapsedB] using this
    have hSexp : ∀ e ∈ S, tick_is_expired e.expire now = true :=
      fun e he => hexp_of_el e (hmemS e he) (hSel e he)
    cases hP2 : P.dropWhile (elapsedB now) with
    | cons g rest2 =>
      have hPsplit : P = P.takeWhile (elapsedB now) ++ (g :: rest2) := by
        rw [← hP2]
        exact (List.takeWhile_append_dropWhile _ _).symm
      have hP1el : ∀ e ∈ P.takeWhile (elapsedB now), elapsedB now e = true :=
        fun e he => List.mem_takeWhile_imp he
      have hP1mem : ∀ e ∈ P.takeWhile (elapsedB now), e ∈ t.exps :=
        fun e he => hmemP e (List.takeWhile_subset _ he)
      have hP1lt : ∀ e ∈ P.takeWhile (elapsedB now), tick_is_lt now e.ekey = false := by
        intro e he
        have := hP1el e he
        simpa [elapsedB] using this
      have hP1exp : ∀ e ∈ P.takeWhile (elapsedB now), tick_is_expired e.expire now = true :=
        fun e he => hexp_of_el e (hP1mem e he) (hP1el e he)
      have hg : tick_is_lt now g.ekey = true := by
        have := dropWhile_head_false P g rest2 hP2
        simpa [elapsedB] using this
      generalize hP1g : P.takeWhile (elapsedB now) = P1 at hPsplit hP1el hP1mem hP1lt hP1exp
      have hexps1 : t.exps = (P1 ++ (g :: rest2)) ++ S := by
        rw [hsplit, hPsplit]
      rw [sweep_run_wrap_stop t now S P1 g rest2 hexps1 hfind hn hSlt hSexp hP1lt hP1exp hg]
      have hE : (S ++ P).takeWhile (elapsedB now) = S ++ P1 := by
        rw [takeWhile_append_of_all S _ hSel]
        rw [hPsplit, takeWhile_append_of_all P1 _ hP1el]
        rw [List.takeWhile_cons]
        rw [if_neg (by simp [elapsedB, hg])]
        rw [List.append_nil]
      have hF : (S ++ P).dropWhile (elapsedB now) = g :: rest2 := by
        rw [dropWhile_append_of_all S _ hSel, hP2]
      rw [hE, hF]
      simp only [List.head?_cons]
      have hrmS : rmEids S t.exps = P := by
        have hx : t.exps = P ++ S ++ [] := by
          rw [List.append_nil]
          exact hsplit
        have hnx : (eids (P ++ S ++ [])).Nodup := by
          rw [← hx]
          exact hn
        rw [hx, rmEids_middle S P [] hnx, List.append_nil]
      have hnP : (eids ([] ++ P1 ++ (g :: rest2))).Nodup := by
        have hsub : List.Sublist P t.exps := by
          rw [hsplit]
          exact List.sublist_append_left _ _
        have : (eids P).Nodup := by
          simp only [eids] at hn ⊢
          exact List.Nodup.sublist (hsub.map (fun e => e.eid)) hn
        simpa [hPsplit] using this
      have hrmP1 : rmEids P1 P = g :: rest2 := by
        rw [hPsplit]
        have := rmEids_middle P1 [] (g :: rest2) hnP
        simpa using this
      simp only [rmEids_append]
      rw [hrmS, hrmP1]
      rw [List.length_append, ← Nat.sub_sub]
    | nil =>
      have hPel : ∀ e ∈ P, elapsedB now e = true := List.dropWhile_eq_nil_iff.mp hP2
      have hPlt : ∀ e ∈ P, tick_is_lt now e.ekey = false := by
        intro e he
        have := hPel e he
        simpa [elapsedB] using this
      have hPexp : ∀ e ∈ P, tick_is_expired e.expire now = true :=
        fun e he => hexp_of_el e (hmemP e he) (hPel e he)
      rw [sweep_run_drain_all t now S P hsplit hfind hn hSlt hSexp hPlt hPexp]
      have hE : (S ++ P).takeWhile (elapsedB now) = S ++ P := by
        rw [takeWhile_append_of_all S _ hSel]
        rw [List.takeWhile_eq_self_iff.mpr hPel]
      have hF : (S ++ P).dropWhile (elapsedB now) = [] := by
        rw [dropWhile_append_of_all S _ hSel, hP2]
      rw [hE, hF]
      simp only [List.head?_nil]
      have hrmS : rmEids S t.exps = P := by
        have hx : t.exps = P ++ S ++ [] := by
          rw [List.append_nil]
          exact hsplit
        have hnx : (eids (P ++ S ++ [])).Nodup := by
          rw [← hx]
          exact hn
        rw [hx, rmEids_middle S P [] hnx, List.append_nil]
      have hnP : (eids ([] ++ P ++ [])).Nodup := by
        have hsub : List.Sublist P t.exps := by
          rw [hsplit]
          exact List.sublist_append_left _ _
        have : (eids P).Nodup := by
          simp only [eids] at hn ⊢
          exact List.Nodup.sublist (hsub.map (fun e => e.eid)) hn
        simpa using this
      have hrmP : rmEids P P = [] := by
        have := rmEids_middle P [] [] hnP
        simpa using this
      simp only [rmEids_append]
      rw [hrmS, hrmP]
      rw [List.length_append, ← Nat.sub_sub]

theorem expired_iff_not_lt {k now : Nat} (hk0 : k ≠ 0) (hk : k < W) (hn : now < W)
    (hh : sub32 k now ≠ 2147483648) :
    tick_is_expired k now = true ↔ tick_is_lt now k = false := by
  simp only [tick_is_expired, tick_isset, tick_is_le, tick_is_lt, sub32, W,
    Bool.and_eq_true, bne_iff_ne, ne_eq, Bool.or_eq_true, beq_iff_eq,
    decide_eq_true_eq, decide_eq_false_iff_not, not_le] at *
  omega

theorem sweep_future_tail (t : Table) (now : Nat)
    (hsort : List.Pairwise (fun a b => a.ekey ≤ b.ekey) t.exps)
    (hbound : ∀ e ∈ t.exps, e.ekey < W)
    (hnow : now < W)
    (hhalf : ∀ e ∈ t.exps, sub32 e.ekey now ≠ 2147483648) :
    ∀ x ∈ (scan_rot t now).dropWhile (elapsedB now), tick_is_lt now x.ekey = true := by
  have hA : sub32 now TIMER_LOOK_BACK = (now + 2147483648) % W := by
    simp only [sub32, TIMER_LOOK_BACK, W]
    omega
  have hAlt : sub32 now TIMER_LOOK_BACK < W := by
    simp only [sub32, W]
    omega
  have hmemS : ∀ y ∈ t.exps.dropWhile
      (fun e => !(decide (sub32 now TIMER_LOOK_BACK ≤ e.ekey))), y ∈ t.exps :=
    fun y hy => (List.dropWhile_sublist _).subset hy
  have hmemP : ∀ y ∈ t.exps.takeWhile
      (fun e => !(decide (sub32 now TIMER_LOOK_BACK ≤ e.ekey))), y ∈ t.exps :=
    fun y hy => List.takeWhile_subset _ hy
  have hmemRot : ∀ y ∈ scan_rot t now, y ∈ t.exps := by
    intro y hy
    simp only [scan_rot, List.mem_append] at hy
    rcases hy with hy | hy
    · exact hmemS y hy
    · exact hmemP y hy
  have hSge : ∀ e ∈ t.exps.dropWhile
      (fun e => !(decide (sub32 now TIMER_LOOK_BACK ≤ e.ekey))),
      sub32 now TIMER_LOOK_BACK ≤ e.ekey :=
    dropWhile_all_ge (sub32 now TIMER_LOOK_BACK) t.exps hsort
  have hPlt : ∀ e ∈ t.exps.takeWhile
      (fun e => !(decide (sub32 now TIMER_LOOK_BACK ≤ e.ekey))),
      e.ekey < sub32 now TIMER_LOOK_BACK := by
    intro e he
    have := List.mem_takeWhile_imp he
    simpa using this
  have hDS : (t.exps.dropWhile
      (fun e => !(decide (sub32 now TIMER_LOOK_BACK ≤ e.ekey)))).Pairwise
      (fun a b => sub32 a.ekey (sub32 now TIMER_LOOK_BACK) ≤
                  sub32 b.ekey (sub32 now TIMER_LOOK_BACK)) := by
    have hs : (t.exps.dropWhile
        (fun e => !(decide (sub32 now TIMER_LOOK_BACK ≤ e.ekey)))).Pairwise
        (fun a b => a.ekey ≤ b.ekey) :=
      List.Pairwise.sublist (List.dropWhile_sublist _) hsort
    refine hs.imp_of_mem ?_
    intro a b ha hb hab
    exact D_S_mono (hSge a ha) hab (hbound b (hmemS b hb)) hAlt
  have hDP : (t.exps.takeWhile
      (fun e => !(decide (sub32 now TIMER_LOOK_BACK ≤ e.ekey)))).Pairwise
      (fun a b => sub32 a.ekey (sub32 now TIMER_LOOK_BACK) ≤
                  sub32 b.ekey (sub32 now TIMER_LOOK_BACK)) := by
    have hs : (t.exps.takeWhile
        (fun e => !(decide (sub32 now TIMER_LOOK_BACK ≤ e.ekey)))).Pairwise
        (fun a b => a.ekey ≤ b.ekey) :=
      List.Pairwise.sublist (List.takeWhile_sublist _) hsort
    refine hs.imp_of_mem ?_
    intro a b ha hb hab
    exact D_P_mono hab (hPlt b hb) hAlt
  have hDrot : (scan_rot t now).Pairwise
      (fun a b => sub32 a.ekey (sub32 now TIMER_LOOK_BACK) ≤
                  sub32 b.ekey (sub32 now TIMER_LOOK_BACK)) := by
    rw [scan_rot]
    refine List.pairwise_append.mpr ⟨hDS, hDP, ?_⟩
    intro a ha b hb
    exact D_SP (hSge a ha) (hbound a (hmemS a ha)) (hPlt b hb)
  intro x hx
  cases hF : (scan_rot t now).dropWhile (elapsedB now) with
  | nil =>
    rw [hF] at hx
    cases hx
  | cons f rest =>
    have hfmem : f ∈ t.exps := by
      apply hmemRot
      apply (List.dropWhile_sublist (elapsedB now)).subset
      rw [hF]
      exact List.mem_cons_self _ _
    have hffut : tick_is_lt now f.ekey = true := by
      have := dropWhile_head_false (scan_rot t now) f rest hF
      simpa [elapsedB] using this
    rw [hF] at hx
    rcases List.mem_cons.mp hx with rfl | hx'
    · exact hffut
    · have hxmem : x ∈ t.exps := by
        apply hmemRot
        apply (List.dropWhile_sublist (elapsedB now)).subset
        rw [hF]
        exact List.mem_cons_of_mem _ hx'
      have hDpair : (f :: rest).Pairwise
          (fun a b => sub32 a.ekey (sub32 now TIMER_LOOK_BACK) ≤
                      sub32 b.ekey (sub32 now TIMER_LOOK_BACK)) := by
        rw [← hF]
        exact List.Pairwise.sublist (List.dropWhile_sublist _) hDrot
      have hD : sub32 f.ekey (sub32 now TIMER_LOOK_BACK) ≤
          sub32 x.ekey (sub32 now TIMER_LOOK_BACK) :=
        List.rel_of_pairwise_cons hDpair hx'
      rw [hA] at hD
      exact future_up (hbound f hfmem) (hbound x hxmem) hnow
        (hhalf f hfmem) (hhalf x hxmem) hD hffut

/-- C7: the expiration sweep removes, with no batch limit, every entry whose
expiry has elapsed — its identity leaves both the expiration index and the
key index and occupancy drops by the number of expired entries — and stops
at the first node of the circular scan whose key is still in the future
relative to `now`, recording that key as the new sweep deadline and
returning it; if the scan exhausts the index without finding a future-keyed
node it sets the deadline to the never sentinel and returns that. -/
theorem sweep_spec (t : Table) (now : Nat)
    (hsort : List.Pairwise (fun a b => a.ekey ≤ b.ekey) t.exps)
    (hn : (eids t.exps).Nodup)
    (hcoh : ∀ e ∈ t.exps, e.expire = e.ekey)
    (hnz : ∀ e ∈ t.exps, e.expire ≠ 0)
    (hbound : ∀ e ∈ t.exps, e.ekey < W)
    (hnow : now < W)
    (hhalf : ∀ e ∈ t.exps, sub32 e.ekey now ≠ 2147483648) :
    (∀ e ∈ t.exps, tick_is_expired e.expire now = true →
       (∀ x ∈ (stktable_trash_expired t now).1.exps, x.eid ≠ e.eid) ∧
       (∀ x ∈ (stktable_trash_expired t now).1.keys, x.eid ≠ e.eid)) ∧
    (∀ e ∈ t.exps, tick_is_expired e.expire now = false →
       e ∈ (stktable_trash_expired t now).1.exps) ∧
    (stktable_trash_expired t now).1.current =
      t.current - (t.exps.filter (fun e => tick_is_expired e.expire now)).length ∧
    (stktable_trash_expired t now).2 = (stktable_trash_expired t now).1.exp_next ∧
    (stktable_trash_expired t now).2 =
      (match ((scan_rot t now).dropWhile (elapsedB now)).head? with
        | some f => f.ekey
        | none => TICK_ETERNITY) ∧
    (∀ f, ((scan_rot t now).dropWhile (elapsedB now)).head? = some f →
       tick_is_lt now f.ekey = true ∧ tick_is_expired f.expire now = false) := by
  have hsplit : t.exps =
      t.exps.takeWhile (fun e => !(decide (sub32 now TIMER_LOOK_BACK ≤ e.ekey))) ++
      t.exps.dropWhile (fun e => !(decide (sub32 now TIMER_LOOK_BACK ≤ e.ekey))) :=
    (List.takeWhile_append_dropWhile _ _).symm
  have hfind : eb32_lookup_ge t.exps (sub32 now TIMER_LOOK_BACK) =
      (t.exps.dropWhile (fun e => !(decide (sub32 now TIMER_LOOK_BACK ≤ e.ekey)))).head? := by
    rw [eb32_lookup_ge]
    exact find?_eq_head_dropWhile _ _
  have hrun := sweep_run_aux t now _ _ hsplit hfind hn hcoh hnz
  have hrot : scan_rot t now =
      t.exps.dropWhile (fun e => !(decide (sub32 now TIMER_LOOK_BACK ≤ e.ekey))) ++
      t.exps.takeWhile (fun e => !(decide (sub32 now TIMER_LOOK_BACK ≤ e.ekey))) := rfl
  rw [← hrot] at hrun
  have hmemRot : ∀ y ∈ scan_rot t now, y ∈ t.exps := by
    intro y hy
    rw [hrot] at hy
    rcases List.mem_append.mp hy with h | h
    · exact (List.dropWhile_sublist _).subset h
    · exact List.takeWhile_subset _ h
  have hmemRot' : ∀ y ∈ t.exps, y ∈ scan_rot t now := by
    intro y hy
    rw [hrot]
    conv at hy => rw [hsplit]
    rcases List.mem_append.mp hy with h | h
    · exact List.mem_append_right _ h
    · exact List.mem_append_left _ h
  have hbridge : ∀ e ∈ t.exps,
      (tick_is_expired e.expire now = true ↔ elapsedB now e = true) := by
    intro e he
    rw [hcoh e he]
    have h1 := expired_iff_not_lt (k := e.ekey)
      (by rw [← hcoh e he]; exact hnz e he) (hbound e he) hnow (hhalf e he)
    constructor
    · intro h
      simp [elapsedB, h1.mp h]
    · intro h
      apply h1.mpr
      simpa [elapsedB] using h
  have hfut := sweep_future_tail t now hsort hbound hnow hhalf
  have hEel : ∀ r ∈ (scan_rot t now).takeWhile (elapsedB now), elapsedB now r = true :=
    fun r hr => List.mem_takeWhile_imp hr
  have hEmem : ∀ r ∈ (scan_rot t now).takeWhile (elapsedB now), r ∈ t.exps :=
    fun r hr => hmemRot r (List.takeWhile_subset _ hr)
  have hFmem : ∀ r ∈ (scan_rot t now).dropWhile (elapsedB now), r ∈ t.exps :=
    fun r hr => hmemRot r ((List.dropWhile_sublist _).subset hr)
  have hEexp : ∀ r ∈ (scan_rot t now).takeWhile (elapsedB now),
      tick_is_expired r.expire now = true :=
    fun r hr => (hbridge r (hEmem r hr)).mpr (hEel r hr)
  have hFnotexp : ∀ r ∈ (scan_rot t now).dropWhile (elapsedB now),
      tick_is_expired r.expire now = false := by
    intro r hr
    have hlt := hfut r hr
    cases hcase : tick_is_expired r.expire now with
    | false => rfl
    | true =>
      have := (hbridge r (hFmem r hr)).mp hcase
      simp [elapsedB, hlt] at this
  have hmemE : ∀ e ∈ t.exps, elapsedB now e = true →
      e ∈ (scan_rot t now).takeWhile (elapsedB now) := by
    intro e he hel
    have hm := hmemRot' e he
    rw [show scan_rot t now =
      (scan_rot t now).takeWhile (elapsedB now) ++
      (scan_rot t now).dropWhile (elapsedB now) from
      (List.takeWhile_append_dropWhile _ _).symm] at hm
    rcases List.mem_append.mp hm with h | h
    · exact h
    · exfalso
      have := hfut e h
      simp [elapsedB, this] at hel
  refine ⟨?_, ?_, ?_, ?_, ?_, ?_⟩
  · intro e he hexp
    have heE := hmemE e he ((hbridge e he).mp hexp)
    constructor
    · intro x hx
      rw [hrun] at hx
      have hx' : x ∈ rmEids ((scan_rot t now).takeWhile (elapsedB now)) t.exps := hx
      exact ((mem_rmEids _ _ x).mp hx').2 e heE
    · intro x hx
      rw [hrun] at hx
      have hx' : x ∈ rmEids ((scan_rot t now).takeWhile (elapsedB now)) t.keys := hx
      exact ((mem_rmEids _ _ x).mp hx').2 e heE
  · intro e he hexp
    rw [hrun]
    show e ∈ rmEids ((scan_rot t now).takeWhile (elapsedB now)) t.exps
    apply (mem_rmEids _ _ e).mpr
    refine ⟨he, ?_⟩
    intro r hr hc
    have hrexp := hEexp r hr
    have hner : e ≠ r := by
      intro hce
      rw [← hce] at hrexp
      rw [hexp] at hrexp
      cases hrexp
    exact hner (List.inj_on_of_nodup_map (by simpa [eids] using hn) he (hEmem r hr) hc)
  · rw [hrun]
    show t.current - ((scan_rot t now).takeWhile (elapsedB now)).length =
      t.current - (t.exps.filter (fun e => tick_is_expired e.expire now)).length
    congr 1
    have h1 : (scan_rot t now).filter (fun e => tick_is_expired e.expire now) =
        (scan_rot t now).takeWhile (elapsedB now) := by
      conv_lhs => rw [show scan_rot t now =
        (scan_rot t now).takeWhile (elapsedB now) ++
        (scan_rot t now).dropWhile (elapsedB now) from
        (List.takeWhile_append_dropWhile _ _).symm]
      rw [List.filter_append]
      rw [List.filter_eq_self.mpr hEexp]
      rw [List.filter_eq_nil_iff.mpr (fun a ha hc => by rw [hFnotexp a ha] at hc; cases hc)]
      rw [List.append_nil]
    have h2 : ((scan_rot t now).filter (fun e => tick_is_expired e.expire now)).length =
        (t.exps.filter (fun e => tick_is_expired e.expire now)).length := by
      rw [hrot]
      conv_rhs => rw [hsplit]
      rw [List.filter_append, List.filter_append, List.length_append, List.length_append]
      omega
    rw [← h1, h2]
  · rw [hrun]
  · rw [hrun]
  · intro f hf
    have hfF : f ∈ (scan_rot t now).dropWhile (elapsedB now) :=
      List.mem_of_mem_head? (Option.mem_def.mpr hf)
    have hffut := hfut f hfF
    refine ⟨hffut, ?_⟩
    have hfmem := hFmem f hfF
    rw [hcoh f hfmem]
    exact future_not_expired (hbound f hfmem) hnow (hhalf f hfmem) hffut

/-- A two-entry table (one elapsed entry, one future entry) used to witness
the sweep characterization at `now = 1000`. -/
def sweepT : Table :=
  { bootIp 10 1000 with
    current := 2,
    keys := [StkSess.mk 1 [1,1,1,1] 1 500 500, StkSess.mk 2 [2,2,2,2] 1 2000 2000],
    exps := [StkSess.mk 1 [1,1,1,1] 1 500 500, StkSess.mk 2 [2,2,2,2] 1 2000 2000] }

theorem sweep_spec_witness :
    (∀ e ∈ sweepT.exps, tick_is_expired e.expire 1000 = true →
       (∀ x ∈ (stktable_trash_expired sweepT 1000).1.exps, x.eid ≠ e.eid) ∧
       (∀ x ∈ (stktable_trash_expired sweepT 1000).1.keys, x.eid ≠ e.eid)) ∧
    (∀ e ∈ sweepT.exps, tick_is_expired e.expire 1000 = false →
       e ∈ (stktable_trash_expired sweepT 1000).1.exps) ∧
    (stktable_trash_expired sweepT 1000).1.current =
      sweepT.current - (sweepT.exps.filter (fun e => tick_is_expired e.expire 1000)).length ∧
    (stktable_trash_expired sweepT 1000).2 = (stktable_trash_expired sweepT 1000).1.exp_next ∧
    (stktable_trash_expired sweepT 1000).2 =
      (match ((scan_rot sweepT 1000).dropWhile (elapsedB 1000)).head? with
        | some f => f.ekey
        | none => TICK_ETERNITY) ∧
    (∀ f, ((scan_rot sweepT 1000).dropWhile (elapsedB 1000)).head? = some f →
       tick_is_lt 1000 f.ekey = true ∧ tick_is_expired f.expire 1000 = false) :=
  sweep_spec sweepT 1000 (by decide) (by decide) (by decide) (by decide) (by decide)
    (by decide) (by decide)
